import Mathlib

/-!
Verification development for the chip-tree rendering core
(`packages/runtime_base/src/workRender.ts`, `packages/runtime_base/src/component.ts`,
with the `Chip` data model from `chip.ts`).

Shallow embedding conventions:
* chips are addressed by natural-number ids (the JS heap objects become
  id-indexed records), `null`/`undefined` object references become `Option Nat`;
* the mutable per-chip fields touched by the traversal engine
  (`phase`, `parent`, `prevSibling`, `lastChild`, `currentChildIndex`) are kept in an
  explicit state record, updated functionally;
* `currentChildIndex` is an `Int`, since the source decrements it below zero
  (`children[--parent.currentChildIndex]`), and a JS array access at a negative or
  out-of-range index yields `undefined`, embedded as `Option.none`;
* external collaborators (DOM adapter, reactive effect primitive, scheduler) are
  modelled at their interface boundary: their outcomes are inputs, and calls into
  them are recorded as events.
-/

/-- `ChipPhases` from chip.ts: PENDING = 0, INITIALIZE = 1, COMPLETE = 2. -/
inductive ChipPhases where
  | PENDING
  | INITIALIZE
  | COMPLETE
deriving DecidableEq, Repr

/-- A chip's `children` container (`ChipChildren = Chip | Chip[]`, possibly absent):
either no chip child, a single chip, or an array of chips (chips given by id). -/
inductive Kids where
  | knone
  | ksingle (c : Nat)
  | karr (cs : List Nat)
deriving DecidableEq, Repr

namespace Render

/-- The traversal-relevant mutable fields of a `Chip` (chip.ts `Chip` interface):
`phase`, `parent`, `prevSibling`, `lastChild` and `currentChildIndex`.
A freshly built chip has phase PENDING and no sibling/child links. -/
structure CS where
  phase : ChipPhases
  parent : Option Nat
  prevSibling : Option Nat
  lastChild : Option Nat
  currentChildIndex : Int
deriving DecidableEq, Repr

/-- The pointer state of the whole chip heap: per-id chip record. -/
def St : Type := Nat → CS

/-- Functional update of a single chip's record. -/
def upd (s : St) (i : Nat) (v : CS) : St := fun j => if j = i then v else s j

@[simp] theorem upd_same (s : St) (i : Nat) (v : CS) : upd s i v i = v := by
  simp [upd]

theorem upd_other (s : St) (i : Nat) (v : CS) {j : Nat} (h : j ≠ i) : upd s i v j = s j := by
  simp [upd, h]

/-- Modelled from the spec: `getLastChipChild` is imported from chip.ts but its body is
not in the provided sources (only `getFirstChipChild`, which returns a single chip
child directly and `children[0] ? children[0] : null` for arrays, is).  The spec says
the engine will "derive the first/last child from its children container", so the last
child of a single-chip container is that chip and the last child of an array container
is its last element (or null when the array is empty). -/
def getLastChipChild : Kids → Option Nat
  | .knone => none
  | .ksingle c => some c
  | .karr cs => cs.getLast?

/-- JS array read `cs[i]` with an `Int` index: `undefined` (none) when the index is
negative or past the end. -/
def jsIndex (cs : List Nat) (i : Int) : Option Nat :=
  if 0 ≤ i then cs[i.toNat]? else none

/-- The next-chip computation at the tail of `completeChip` (workRender.ts 224-242),
run on the state in which the chip has just been marked COMPLETE:
`let sibling = chip.prevSibling; if (sibling === null) { const parent = chip.parent;
const children = parent?.children; if (isArray(children)) sibling =
children[--parent.currentChildIndex]; } if (sibling) { chip.prevSibling = sibling;
sibling.parent = chip.parent; return sibling } else return chip.parent`.
`kids` gives every chip's `children` container.  Chips stored in a children array are
real objects, hence truthy, so `if (sibling)` is the `Option.isSome` test. -/
def nextChipAfter (kids : Nat → Kids) (s : St) (c : Nat) : St × Option Nat :=
  match (s c).prevSibling with
  | some b =>
      let s1 := upd s c { s c with prevSibling := some b }
      let s2 := upd s1 b { s1 b with parent := (s1 c).parent }
      (s2, some b)
  | none =>
      match (s c).parent with
      | some p =>
          match kids p with
          | .karr cs =>
              let i := (s p).currentChildIndex - 1
              let s1 := upd s p { s p with currentChildIndex := i }
              match jsIndex cs i with
              | some b =>
                  let s2 := upd s1 c { s1 c with prevSibling := some b }
                  let s3 := upd s2 b { s2 b with parent := (s2 c).parent }
                  (s3, some b)
              | none => (s1, (s1 c).parent)
          | _ => (s, (s c).parent)
      | none => (s, (s c).parent)

/-- `completeChip` (workRender.ts 220-243): mark the chip COMPLETE, run
`genMutableEffects` (which performs DOM/lifecycle work only and neither reads nor
writes any traversal pointer, see `completeRenderWorkForChipSync`), then compute the
next chip to visit. -/
def completeChip (kids : Nat → Kids) (s : St) (c : Nat) : St × Option Nat :=
  nextChipAfter kids (upd s c { s c with phase := .COMPLETE }) c

/-- `performChipWork` (workRender.ts 158-194).  `initRenderWorkForChip` performs
node preparation only (DOM container creation, component render producing the
children container, virtual-chip effect creation); the `children` container it leaves
behind is what `kids` records, and it touches no traversal pointer.  In the PENDING
branch the source runs `chip.lastChild = lastChild = lastChipChild;
lastChild.parent = chip; chip.currentChildIndex = isArray(children) ?
(children.length - 1) : 0` and descends, or completes the chip when it has no chip
child.  A chip in phase COMPLETE falls through both branches (the JS function returns
`undefined`); that case is unreachable in a run from a fresh PENDING tree and is
embedded as `none`. -/
def performChipWork (kids : Nat → Kids) (s : St) (c : Nat) : St × Option Nat :=
  match (s c).phase with
  | .PENDING =>
      let s1 := upd s c { s c with phase := .INITIALIZE }
      match (s1 c).lastChild with
      | none =>
          match getLastChipChild (kids c) with
          | some lc =>
              let s2 := upd s1 c { s1 c with lastChild := some lc }
              let s3 := upd s2 lc { s2 lc with parent := some c }
              let ix : Int :=
                match kids c with
                | .karr cs => (cs.length : Int) - 1
                | _ => 0
              let s4 := upd s3 c { s3 c with currentChildIndex := ix }
              (s4, some lc)
          | none => completeChip kids s1 c
      | some lc => (s1, some lc)
  | .INITIALIZE => completeChip kids s c
  | .COMPLETE => (s, none)

/-- The `while (ongoingChip !== null)` loop of `performRenderSync`
(workRender.ts 127-136), with explicit fuel.  The third component is the sequence of
chips in the order in which their phase transitioned to COMPLETE (the completion
trace); the second is the current chip when the fuel runs out (`none` once the
traversal has terminated). -/
def runRender (kids : Nat → Kids) : Nat → St → Option Nat → St × Option Nat × List Nat
  | 0, s, cur => (s, cur, [])
  | fuel + 1, s, cur =>
      match cur with
      | none => (s, none, [])
      | some c =>
          let r := performChipWork kids s c
          let rest := runRender kids fuel r.1 r.2
          if (s c).phase ≠ ChipPhases.COMPLETE ∧ (r.1 c).phase = ChipPhases.COMPLETE then
            (rest.1, rest.2.1, c :: rest.2.2)
          else
            (rest.1, rest.2.1, rest.2.2)

/-- Chip trees as an inductive shape, used to quantify over the chip heaps the
traversal can face: each node carries its id and its `children` container kind
(no chip child / a single chip child / an array of chip children).  The heap
function `kids` of the machine is related to such a tree by `agreesT` below. -/
inductive CTree where
  | leaf (i : Nat)
  | one (i : Nat) (c : CTree)
  | many (i : Nat) (cs : List CTree)

/-- The id stored at the root of a chip tree. -/
def CTree.id : CTree → Nat
  | .leaf i => i
  | .one i _ => i
  | .many i _ => i

mutual
/-- Number of chips in a tree. -/
def szT : CTree → Nat
  | .leaf _ => 1
  | .one _ c => 1 + szT c
  | .many _ cs => 1 + szL cs
/-- Number of chips in a forest. -/
def szL : List CTree → Nat
  | [] => 0
  | c :: cs => szT c + szL cs
end

mutual
/-- All chip ids of a tree. -/
def idsT : CTree → List Nat
  | .leaf i => [i]
  | .one i c => i :: idsT c
  | .many i cs => i :: idsL cs
/-- All chip ids of a forest. -/
def idsL : List CTree → List Nat
  | [] => []
  | c :: cs => idsT c ++ idsL cs
end

mutual
/-- Reverse post-order listing of a tree: children subtrees from the tail of the
children array to its head, then the node itself.  This is the completion order the
work loop is claimed to realise. -/
def rpostT : CTree → List Nat
  | .leaf i => [i]
  | .one i c => rpostT c ++ [i]
  | .many i cs => rpostL cs ++ [i]
/-- Reverse post-order of a forest: the listed trees are traversed last-to-first. -/
def rpostL : List CTree → List Nat
  | [] => []
  | c :: cs => rpostL cs ++ rpostT c
end

mutual
/-- All (parent id, child id) edges of a tree. -/
def pairsT : CTree → List (Nat × Nat)
  | .leaf _ => []
  | .one i c => (i, c.id) :: pairsT c
  | .many i cs => cs.map (fun c => (i, c.id)) ++ pairsL cs
/-- All (parent id, child id) edges of a forest. -/
def pairsL : List CTree → List (Nat × Nat)
  | [] => []
  | c :: cs => pairsT c ++ pairsL cs
end

mutual
/-- The id lists of all array-children containers occurring in a tree, in source
order; used to state the tail-to-head sibling-completion property. -/
def arrsT : CTree → List (List Nat)
  | .leaf _ => []
  | .one _ c => arrsT c
  | .many _ cs => (cs.map CTree.id) :: arrsL cs
/-- The array-children id lists of a forest. -/
def arrsL : List CTree → List (List Nat)
  | [] => []
  | c :: cs => arrsT c ++ arrsL cs
end

mutual
/-- The chip heap `kids` realises the tree `T`: every chip of `T` has exactly the
children container the tree prescribes. -/
def agreesT (kids : Nat → Kids) : CTree → Bool
  | .leaf i => kids i == Kids.knone
  | .one i c => (kids i == Kids.ksingle c.id) && agreesT kids c
  | .many i cs => (kids i == Kids.karr (cs.map CTree.id)) && agreesL kids cs
/-- `agreesT` over every tree of a forest. -/
def agreesL (kids : Nat → Kids) : List CTree → Bool
  | [] => true
  | c :: cs => agreesT kids c && agreesL kids cs
end

/-- A chip that has not yet been visited by any traversal: phase PENDING, no cached
previous sibling, no linked last child (chip.ts builds chips without these links; the
work loop itself establishes them). -/
abbrev freshAt (s : St) (x : Nat) : Prop :=
  (s x).phase = ChipPhases.PENDING ∧ (s x).prevSibling = none ∧ (s x).lastChild = none

theorem upd_upd_same (s : St) (i : Nat) (a b : CS) : upd (upd s i a) i b = upd s i b := by
  funext j
  by_cases h : j = i <;> simp [upd, h]

theorem runRender_none (kids : Nat → Kids) (m : Nat) (s : St) :
    runRender kids m s none = (s, none, []) := by
  cases m <;> rfl

theorem runRender_add (kids : Nat → Kids) (f g : Nat) : ∀ (s : St) (cur : Option Nat),
    runRender kids (f + g) s cur =
      ((runRender kids g (runRender kids f s cur).1 (runRender kids f s cur).2.1).1,
       (runRender kids g (runRender kids f s cur).1 (runRender kids f s cur).2.1).2.1,
       (runRender kids f s cur).2.2 ++
         (runRender kids g (runRender kids f s cur).1
           (runRender kids f s cur).2.1).2.2) := by
  induction f with
  | zero =>
      intro s cur
      simp [runRender]
  | succ f ih =>
      intro s cur
      cases cur with
      | none =>
          have h1 : f + 1 + g = (f + g) + 1 := by omega
          rw [h1]
          simp [runRender_none, runRender]
      | some c =>
          have h1 : f + 1 + g = (f + g) + 1 := by omega
          rw [h1]
          simp only [runRender]
          rw [ih]
          by_cases hcond : (s c).phase ≠ ChipPhases.COMPLETE ∧
              ((performChipWork kids s c).1 c).phase = ChipPhases.COMPLETE
          · simp [hcond]
          · simp [hcond]

theorem performChipWork_bubble (kids : Nat → Kids) (s : St) (c : Nat)
    (hph : (s c).phase = ChipPhases.INITIALIZE) :
    performChipWork kids s c = completeChip kids s c := by
  unfold performChipWork
  simp only [hph]

theorem performChipWork_leaf (kids : Nat → Kids) (s : St) (c : Nat)
    (hph : (s c).phase = ChipPhases.PENDING)
    (hlast : (s c).lastChild = none)
    (hkid : getLastChipChild (kids c) = none) :
    performChipWork kids s c = completeChip kids s c := by
  unfold performChipWork
  simp only [hph, upd_same, hlast, hkid]
  unfold completeChip
  rw [upd_upd_same]
  simp [upd_same, hlast]

theorem performChipWork_descend (kids : Nat → Kids) (s : St) (c lc : Nat)
    (hph : (s c).phase = ChipPhases.PENDING)
    (hlast : (s c).lastChild = none)
    (hkid : getLastChipChild (kids c) = some lc) :
    performChipWork kids s c =
      (let s2 := upd s c { s c with phase := ChipPhases.INITIALIZE, lastChild := some lc }
       let s3 := upd s2 lc { s2 lc with parent := some c }
       let ix : Int :=
         match kids c with
         | .karr cs => (cs.length : Int) - 1
         | _ => 0
       let s4 := upd s3 c { s3 c with currentChildIndex := ix }
       (s4, some lc)) := by
  unfold performChipWork
  simp only [hph, upd_same, hlast, hkid]
  rw [upd_upd_same]

theorem nextChipAfter_cached (kids : Nat → Kids) (s : St) (c b : Nat)
    (hprev : (s c).prevSibling = some b) :
    nextChipAfter kids s c =
      (let s1 := upd s c { s c with prevSibling := some b }
       let s2 := upd s1 b { s1 b with parent := (s1 c).parent }
       (s2, some b)) := by
  simp only [nextChipAfter, hprev]

theorem nextChipAfter_root (kids : Nat → Kids) (s : St) (c : Nat)
    (hprev : (s c).prevSibling = none) (hpar : (s c).parent = none) :
    nextChipAfter kids s c = (s, none) := by
  simp only [nextChipAfter, hprev, hpar]

theorem nextChipAfter_knone (kids : Nat → Kids) (s : St) (c p : Nat)
    (hprev : (s c).prevSibling = none) (hpar : (s c).parent = some p)
    (hkp : kids p = .knone) :
    nextChipAfter kids s c = (s, some p) := by
  simp only [nextChipAfter, hprev, hpar, hkp]

theorem nextChipAfter_ksingle (kids : Nat → Kids) (s : St) (c p x : Nat)
    (hprev : (s c).prevSibling = none) (hpar : (s c).parent = some p)
    (hkp : kids p = .ksingle x) :
    nextChipAfter kids s c = (s, some p) := by
  simp only [nextChipAfter, hprev, hpar, hkp]

theorem nextChipAfter_array_some (kids : Nat → Kids) (s : St) (c p b : Nat)
    (cs : List Nat)
    (hprev : (s c).prevSibling = none) (hpar : (s c).parent = some p)
    (hkp : kids p = .karr cs)
    (hj : jsIndex cs ((s p).currentChildIndex - 1) = some b) :
    nextChipAfter kids s c =
      (let s1 := upd s p { s p with currentChildIndex := (s p).currentChildIndex - 1 }
       let s2 := upd s1 c { s1 c with prevSibling := some b }
       let s3 := upd s2 b { s2 b with parent := (s2 c).parent }
       (s3, some b)) := by
  simp only [nextChipAfter, hprev, hpar, hkp, hj]

theorem nextChipAfter_array_none (kids : Nat → Kids) (s : St) (c p : Nat)
    (cs : List Nat)
    (hprev : (s c).prevSibling = none) (hpar : (s c).parent = some p)
    (hkp : kids p = .karr cs)
    (hj : jsIndex cs ((s p).currentChildIndex - 1) = none) :
    nextChipAfter kids s c =
      (let s1 := upd s p { s p with currentChildIndex := (s p).currentChildIndex - 1 }
       (s1, (s1 c).parent)) := by
  simp only [nextChipAfter, hprev, hpar, hkp, hj]

theorem upd_phase (s : St) (i : Nat) (v : CS) (hv : v.phase = (s i).phase) (x : Nat) :
    ((upd s i v) x).phase = (s x).phase := by
  by_cases hx : x = i
  · subst hx
    simp [upd, hv]
  · simp [upd, hx]

theorem nextChipAfter_phase (kids : Nat → Kids) (s : St) (c : Nat) :
    ∀ x, ((nextChipAfter kids s c).1 x).phase = (s x).phase := by
  intro x
  cases hprev : (s c).prevSibling with
  | some b =>
      rw [nextChipAfter_cached kids s c b hprev]
      simp only [upd]
      split_ifs <;> simp_all
  | none =>
      cases hpar : (s c).parent with
      | none =>
          rw [nextChipAfter_root kids s c hprev hpar]
      | some p =>
          cases hkp : kids p with
          | knone => rw [nextChipAfter_knone kids s c p hprev hpar hkp]
          | ksingle y => rw [nextChipAfter_ksingle kids s c p y hprev hpar hkp]
          | karr cs =>
              cases hj : jsIndex cs ((s p).currentChildIndex - 1) with
              | some b =>
                  rw [nextChipAfter_array_some kids s c p b cs hprev hpar hkp hj]
                  simp only [upd]
                  split_ifs <;> simp_all
              | none =>
                  rw [nextChipAfter_array_none kids s c p cs hprev hpar hkp hj]
                  simp only [upd]
                  split_ifs <;> simp_all

theorem szL_append : ∀ (l1 l2 : List CTree), szL (l1 ++ l2) = szL l1 + szL l2 := by
  intro l1 l2
  induction l1 with
  | nil => simp [szL]
  | cons c cs ih => simp [szL, ih]; omega

theorem szT_pos : ∀ (T : CTree), 1 ≤ szT T := by
  intro T
  cases T <;> simp [szT]

theorem idsL_append : ∀ (l1 l2 : List CTree), idsL (l1 ++ l2) = idsL l1 ++ idsL l2 := by
  intro l1 l2
  induction l1 with
  | nil => simp [idsL]
  | cons c cs ih => simp [idsL, ih]

theorem rpostL_append : ∀ (l1 l2 : List CTree),
    rpostL (l1 ++ l2) = rpostL l2 ++ rpostL l1 := by
  intro l1 l2
  induction l1 with
  | nil => simp [rpostL]
  | cons c cs ih => simp [rpostL, ih]

theorem rpostL_singleton (c : CTree) : rpostL [c] = rpostT c := by
  simp [rpostL]

theorem agreesL_append (kids : Nat → Kids) : ∀ (l1 l2 : List CTree),
    agreesL kids (l1 ++ l2) = (agreesL kids l1 && agreesL kids l2) := by
  intro l1 l2
  induction l1 with
  | nil => simp [agreesL]
  | cons c cs ih => simp [agreesL, ih, Bool.and_assoc]

theorem id_mem_idsT : ∀ (T : CTree), T.id ∈ idsT T := by
  intro T
  cases T <;> simp [idsT, CTree.id]

theorem idsT_sub_idsL : ∀ {cs : List CTree} {c : CTree}, c ∈ cs →
    ∀ x ∈ idsT c, x ∈ idsL cs := by
  intro cs
  induction cs with
  | nil => intro c h; cases h
  | cons d ds ih =>
      intro c h x hx
      simp only [idsL]
      rcases List.mem_cons.mp h with h | h
      · subst h; exact List.mem_append.mpr (Or.inl hx)
      · exact List.mem_append.mpr (Or.inr (ih h x hx))

mutual
theorem rpostT_perm : ∀ (T : CTree), List.Perm (rpostT T) (idsT T)
  | .leaf i => by simp [rpostT, idsT]
  | .one i c => by
      have h := rpostT_perm c
      simp only [rpostT, idsT]
      exact (h.append_right [i]).trans (List.perm_append_singleton i (idsT c))
  | .many i cs => by
      have h := rpostL_perm cs
      simp only [rpostT, idsT]
      exact (h.append_right [i]).trans (List.perm_append_singleton i (idsL cs))
theorem rpostL_perm : ∀ (l : List CTree), List.Perm (rpostL l) (idsL l)
  | [] => by simp [rpostL, idsL]
  | c :: cs => by
      have h1 := rpostT_perm c
      have h2 := rpostL_perm cs
      simp only [rpostL, idsL]
      exact (h2.append h1).trans List.perm_append_comm
end

theorem mem_rpostT {x : Nat} {T : CTree} : x ∈ rpostT T ↔ x ∈ idsT T :=
  (rpostT_perm T).mem_iff

theorem mem_rpostL {x : Nat} {l : List CTree} : x ∈ rpostL l ↔ x ∈ idsL l :=
  (rpostL_perm l).mem_iff

mutual
theorem pairsT_mem : ∀ (T : CTree), ∀ pr ∈ pairsT T, pr.1 ∈ idsT T ∧ pr.2 ∈ idsT T
  | .leaf _ => by simp [pairsT]
  | .one i c => by
      intro pr hpr
      simp only [pairsT] at hpr
      simp only [idsT]
      rcases List.mem_cons.mp hpr with h | h
      · subst h
        exact ⟨List.mem_cons_self i (idsT c), List.mem_cons_of_mem i (id_mem_idsT c)⟩
      · have hm := pairsT_mem c pr h
        exact ⟨List.mem_cons_of_mem i hm.1, List.mem_cons_of_mem i hm.2⟩
  | .many i cs => by
      intro pr hpr
      simp only [pairsT] at hpr
      simp only [idsT]
      rcases List.mem_append.mp hpr with h | h
      · rcases List.mem_map.mp h with ⟨c, hc, hcpr⟩
        subst hcpr
        exact ⟨List.mem_cons_self i (idsL cs),
          List.mem_cons_of_mem i (idsT_sub_idsL hc c.id (id_mem_idsT c))⟩
      · have hm := pairsL_mem cs pr h
        exact ⟨List.mem_cons_of_mem i hm.1, List.mem_cons_of_mem i hm.2⟩
theorem pairsL_mem : ∀ (l : List CTree), ∀ pr ∈ pairsL l, pr.1 ∈ idsL l ∧ pr.2 ∈ idsL l
  | [] => by simp [pairsL]
  | c :: cs => by
      intro pr hpr
      simp only [pairsL] at hpr
      simp only [idsL]
      rcases List.mem_append.mp hpr with h | h
      · have hm := pairsT_mem c pr h
        exact ⟨List.mem_append.mpr (Or.inl hm.1), List.mem_append.mpr (Or.inl hm.2)⟩
      · have hm := pairsL_mem cs pr h
        exact ⟨List.mem_append.mpr (Or.inr hm.1), List.mem_append.mpr (Or.inr hm.2)⟩
end

mutual
theorem arrsT_mem : ∀ (T : CTree), ∀ a ∈ arrsT T, ∀ x ∈ a, x ∈ idsT T
  | .leaf _ => by simp [arrsT]
  | .one i c => by
      intro a ha x hx
      simp only [arrsT] at ha
      simp only [idsT]
      exact List.mem_cons_of_mem i (arrsT_mem c a ha x hx)
  | .many i cs => by
      intro a ha x hx
      simp only [arrsT] at ha
      simp only [idsT]
      rcases List.mem_cons.mp ha with h | h
      · subst h
        rcases List.mem_map.mp hx with ⟨c, hc, hcx⟩
        subst hcx
        exact List.mem_cons_of_mem i (idsT_sub_idsL hc c.id (id_mem_idsT c))
      · exact List.mem_cons_of_mem i (arrsL_mem cs a h x hx)
theorem arrsL_mem : ∀ (l : List CTree), ∀ a ∈ arrsL l, ∀ x ∈ a, x ∈ idsL l
  | [] => by simp [arrsL]
  | c :: cs => by
      intro a ha x hx
      simp only [arrsL] at ha
      simp only [idsL]
      rcases List.mem_append.mp ha with h | h
      · exact List.mem_append.mpr (Or.inl (arrsT_mem c a h x hx))
      · exact List.mem_append.mpr (Or.inr (arrsL_mem cs a h x hx))
end

theorem indexOf_last {x : Nat} {l : List Nat} (h : x ∉ l) :
    (l ++ [x]).indexOf x = l.length := by
  rw [List.indexOf_append_of_not_mem h, List.indexOf_cons_self]
  omega

theorem indexOf_lt_last {x y : Nat} {l : List Nat} (hx : x ∈ l) (hy : y ∉ l) :
    (l ++ [y]).indexOf x < (l ++ [y]).indexOf y := by
  rw [indexOf_last hy, List.indexOf_append_of_mem hx]
  exact List.indexOf_lt_length.mpr hx

mutual
theorem pairsT_order : ∀ (T : CTree), (idsT T).Nodup →
    ∀ pr ∈ pairsT T, (rpostT T).indexOf pr.2 < (rpostT T).indexOf pr.1
  | .leaf _ => by simp [pairsT]
  | .one i c => by
      intro hnd pr hpr
      obtain ⟨hni, hnc⟩ := List.nodup_cons.mp (by simpa [idsT] using hnd)
      have hnotr : i ∉ rpostT c := fun hmem => hni (mem_rpostT.mp hmem)
      simp only [pairsT] at hpr
      simp only [rpostT]
      rcases List.mem_cons.mp hpr with h | h
      · subst h
        exact indexOf_lt_last (mem_rpostT.mpr (id_mem_idsT c)) hnotr
      · have hm := pairsT_mem c pr h
        rw [List.indexOf_append_of_mem (mem_rpostT.mpr hm.1),
          List.indexOf_append_of_mem (mem_rpostT.mpr hm.2)]
        exact pairsT_order c hnc pr h
  | .many i cs => by
      intro hnd pr hpr
      obtain ⟨hni, hnc⟩ := List.nodup_cons.mp (by simpa [idsT] using hnd)
      have hnotr : i ∉ rpostL cs := fun hmem => hni (mem_rpostL.mp hmem)
      simp only [pairsT] at hpr
      simp only [rpostT]
      rcases List.mem_append.mp hpr with h | h
      · rcases List.mem_map.mp h with ⟨c, hc, hcpr⟩
        subst hcpr
        exact indexOf_lt_last
          (mem_rpostL.mpr (idsT_sub_idsL hc c.id (id_mem_idsT c))) hnotr
      · have hm := pairsL_mem cs pr h
        rw [List.indexOf_append_of_mem (mem_rpostL.mpr hm.1),
          List.indexOf_append_of_mem (mem_rpostL.mpr hm.2)]
        exact pairsL_order cs hnc pr h
theorem pairsL_order : ∀ (l : List CTree), (idsL l).Nodup →
    ∀ pr ∈ pairsL l, (rpostL l).indexOf pr.2 < (rpostL l).indexOf pr.1
  | [] => by simp [pairsL]
  | c :: cs => by
      intro hnd pr hpr
      obtain ⟨hn1, hn2, hdisj⟩ := List.nodup_append.mp (by simpa [idsL] using hnd)
      simp only [pairsL] at hpr
      simp only [rpostL]
      rcases List.mem_append.mp hpr with h | h
      · have hm := pairsT_mem c pr h
        have h1 : pr.1 ∉ rpostL cs := fun hmem => hdisj hm.1 (mem_rpostL.mp hmem)
        have h2 : pr.2 ∉ rpostL cs := fun hmem => hdisj hm.2 (mem_rpostL.mp hmem)
        rw [List.indexOf_append_of_not_mem h1, List.indexOf_append_of_not_mem h2]
        exact Nat.add_lt_add_left (pairsT_order c hn1 pr h) _
      · have hm := pairsL_mem cs pr h
        rw [List.indexOf_append_of_mem (mem_rpostL.mpr hm.1),
          List.indexOf_append_of_mem (mem_rpostL.mpr hm.2)]
        exact pairsL_order cs hn2 pr h
end

theorem rpostL_sibling_order : ∀ (cs : List CTree), (idsL cs).Nodup →
    ∀ j k (hj : j < cs.length) (hk : k < cs.length), j < k →
    (rpostL cs).indexOf (cs.get ⟨k, hk⟩).id < (rpostL cs).indexOf (cs.get ⟨j, hj⟩).id := by
  intro cs
  induction cs with
  | nil => intro _ j k hj _ _; simp at hj
  | cons c cs ih =>
      intro hnd j k hj hk hjk
      obtain ⟨hn1, hn2, hdisj⟩ := List.nodup_append.mp (by simpa [idsL] using hnd)
      simp only [rpostL]
      match j, k with
      | 0, k' + 1 =>
          have hk' : k' < cs.length := by simpa using hk
          have hcid : c.id ∉ rpostL cs := fun hmem =>
            hdisj (id_mem_idsT c) (mem_rpostL.mp hmem)
          have hkid : (cs.get ⟨k', hk'⟩).id ∈ rpostL cs :=
            mem_rpostL.mpr (idsT_sub_idsL (List.get_mem cs k' hk')
              (cs.get ⟨k', hk'⟩).id (id_mem_idsT _))
          show (rpostL cs ++ rpostT c).indexOf (cs.get ⟨k', hk'⟩).id <
            (rpostL cs ++ rpostT c).indexOf c.id
          rw [List.indexOf_append_of_mem hkid, List.indexOf_append_of_not_mem hcid]
          calc (rpostL cs).indexOf (cs.get ⟨k', hk'⟩).id
              < (rpostL cs).length := List.indexOf_lt_length.mpr hkid
            _ ≤ (rpostL cs).length + (rpostT c).indexOf c.id := Nat.le_add_right _ _
      | j' + 1, k' + 1 =>
          have hj' : j' < cs.length := by simpa using hj
          have hk' : k' < cs.length := by simpa using hk
          have hjid : (cs.get ⟨j', hj'⟩).id ∈ rpostL cs :=
            mem_rpostL.mpr (idsT_sub_idsL (List.get_mem cs j' hj')
              (cs.get ⟨j', hj'⟩).id (id_mem_idsT _))
          have hkid : (cs.get ⟨k', hk'⟩).id ∈ rpostL cs :=
            mem_rpostL.mpr (idsT_sub_idsL (List.get_mem cs k' hk')
              (cs.get ⟨k', hk'⟩).id (id_mem_idsT _))
          show (rpostL cs ++ rpostT c).indexOf (cs.get ⟨k', hk'⟩).id <
            (rpostL cs ++ rpostT c).indexOf (cs.get ⟨j', hj'⟩).id
          rw [List.indexOf_append_of_mem hkid, List.indexOf_append_of_mem hjid]
          exact ih hn2 j' k' hj' hk' (by omega)

mutual
theorem arrsT_order : ∀ (T : CTree), (idsT T).Nodup →
    ∀ a ∈ arrsT T, ∀ j k (hj : j < a.length) (hk : k < a.length), j < k →
    (rpostT T).indexOf (a.get ⟨k, hk⟩) < (rpostT T).indexOf (a.get ⟨j, hj⟩)
  | .leaf _ => by simp [arrsT]
  | .one i c => by
      intro hnd a ha j k hj hk hjk
      obtain ⟨hni, hnc⟩ := List.nodup_cons.mp (by simpa [idsT] using hnd)
      simp only [arrsT] at ha
      simp only [rpostT]
      have hjm : a.get ⟨j, hj⟩ ∈ rpostT c :=
        mem_rpostT.mpr (arrsT_mem c a ha _ (List.get_mem a j hj))
      have hkm : a.get ⟨k, hk⟩ ∈ rpostT c :=
        mem_rpostT.mpr (arrsT_mem c a ha _ (List.get_mem a k hk))
      rw [List.indexOf_append_of_mem hkm, List.indexOf_append_of_mem hjm]
      exact arrsT_order c hnc a ha j k hj hk hjk
  | .many i cs => by
      intro hnd a ha j k hj hk hjk
      obtain ⟨hni, hnc⟩ := List.nodup_cons.mp (by simpa [idsT] using hnd)
      simp only [arrsT] at ha
      simp only [rpostT]
      rcases List.mem_cons.mp ha with h | h
      · subst h
        have hj' : j < cs.length := by simpa using hj
        have hk' : k < cs.length := by simpa using hk
        have hgj : (cs.map CTree.id).get ⟨j, hj⟩ = (cs.get ⟨j, hj'⟩).id := by
          simp
        have hgk : (cs.map CTree.id).get ⟨k, hk⟩ = (cs.get ⟨k, hk'⟩).id := by
          simp
        rw [hgj, hgk]
        have hjm : (cs.get ⟨j, hj'⟩).id ∈ rpostL cs :=
          mem_rpostL.mpr (idsT_sub_idsL (List.get_mem cs j hj') _ (id_mem_idsT _))
        have hkm : (cs.get ⟨k, hk'⟩).id ∈ rpostL cs :=
          mem_rpostL.mpr (idsT_sub_idsL (List.get_mem cs k hk') _ (id_mem_idsT _))
        rw [List.indexOf_append_of_mem hkm, List.indexOf_append_of_mem hjm]
        exact rpostL_sibling_order cs hnc j k hj' hk' hjk
      · have hjm : a.get ⟨j, hj⟩ ∈ rpostL cs :=
          mem_rpostL.mpr (arrsL_mem cs a h _ (List.get_mem a j hj))
        have hkm : a.get ⟨k, hk⟩ ∈ rpostL cs :=
          mem_rpostL.mpr (arrsL_mem cs a h _ (List.get_mem a k hk))
        rw [List.indexOf_append_of_mem hkm, List.indexOf_append_of_mem hjm]
        exact arrsL_order cs hnc a h j k hj hk hjk
theorem arrsL_order : ∀ (l : List CTree), (idsL l).Nodup →
    ∀ a ∈ arrsL l, ∀ j k (hj : j < a.length) (hk : k < a.length), j < k →
    (rpostL l).indexOf (a.get ⟨k, hk⟩) < (rpostL l).indexOf (a.get ⟨j, hj⟩)
  | [] => by simp [arrsL]
  | c :: cs => by
      intro hnd a ha j k hj hk hjk
      obtain ⟨hn1, hn2, hdisj⟩ := List.nodup_append.mp (by simpa [idsL] using hnd)
      simp only [arrsL] at ha
      simp only [rpostL]
      rcases List.mem_append.mp ha with h | h
      · have hjm : a.get ⟨j, hj⟩ ∈ idsT c := arrsT_mem c a h _ (List.get_mem a j hj)
        have hkm : a.get ⟨k, hk⟩ ∈ idsT c := arrsT_mem c a h _ (List.get_mem a k hk)
        have hj1 : a.get ⟨j, hj⟩ ∉ rpostL cs := fun hmem =>
          hdisj hjm (mem_rpostL.mp hmem)
        have hk1 : a.get ⟨k, hk⟩ ∉ rpostL cs := fun hmem =>
          hdisj hkm (mem_rpostL.mp hmem)
        rw [List.indexOf_append_of_not_mem hk1, List.indexOf_append_of_not_mem hj1]
        exact Nat.add_lt_add_left (arrsT_order c hn1 a h j k hj hk hjk) _
      · have hjm : a.get ⟨j, hj⟩ ∈ rpostL cs :=
          mem_rpostL.mpr (arrsL_mem cs a h _ (List.get_mem a j hj))
        have hkm : a.get ⟨k, hk⟩ ∈ rpostL cs :=
          mem_rpostL.mpr (arrsL_mem cs a h _ (List.get_mem a k hk))
        rw [List.indexOf_append_of_mem hkm, List.indexOf_append_of_mem hjm]
        exact arrsL_order cs hn2 a h j k hj hk hjk
end

theorem jsIndex_neg {cs : List Nat} {i : Int} (h : i < 0) : jsIndex cs i = none := by
  unfold jsIndex
  rw [if_neg (by omega)]

theorem jsIndex_append_cons (A : List Nat) (b : Nat) (B : List Nat) :
    jsIndex (A ++ b :: B) (A.length : Int) = some b := by
  unfold jsIndex
  rw [if_pos (by exact_mod_cast Nat.zero_le A.length)]
  have ht : ((A.length : Int)).toNat = A.length := rfl
  rw [ht, List.getElem?_append_right (le_refl A.length)]
  simp

theorem idsL_singleton (c : CTree) : idsL [c] = idsT c := by
  simp [idsL]

theorem szL_singleton (c : CTree) : szL [c] = szT c := by
  simp [szL]

theorem agreesL_singleton (kids : Nat → Kids) (c : CTree) :
    agreesL kids [c] = agreesT kids c := by
  simp [agreesL]

theorem performChipWork_descend_facts (kids : Nat → Kids) (s : St) (c lc : Nat)
    (hph : (s c).phase = ChipPhases.PENDING)
    (hlast : (s c).lastChild = none)
    (hkid : getLastChipChild (kids c) = some lc)
    (hne : lc ≠ c) (ix : Int)
    (hix : (match kids c with
            | Kids.karr cs => (cs.length : Int) - 1
            | _ => 0) = ix) :
    (performChipWork kids s c).2 = some lc ∧
    (performChipWork kids s c).1 lc = { s lc with parent := some c } ∧
    (performChipWork kids s c).1 c = { s c with phase := ChipPhases.INITIALIZE, lastChild := some lc, currentChildIndex := ix } ∧
    ∀ x, x ≠ c → x ≠ lc → (performChipWork kids s c).1 x = s x := by
  rw [performChipWork_descend kids s c lc hph hlast hkid]
  refine ⟨rfl, ?_, ?_, ?_⟩
  · simp [upd, hne]
  · rw [← hix]
    simp [upd, hne, Ne.symm hne]
  · intro x hx1 hx2
    simp [upd, hx1, hx2]

theorem nextChipAfter_array_some_facts (kids : Nat → Kids) (s : St) (c p b : Nat)
    (cs : List Nat)
    (hprev : (s c).prevSibling = none) (hpar : (s c).parent = some p)
    (hkp : kids p = .karr cs)
    (hj : jsIndex cs ((s p).currentChildIndex - 1) = some b)
    (hcp : c ≠ p) (hbp : b ≠ p) (hbc : b ≠ c) :
    (nextChipAfter kids s c).2 = some b ∧
    (nextChipAfter kids s c).1 p =
      { s p with currentChildIndex := (s p).currentChildIndex - 1 } ∧
    (nextChipAfter kids s c).1 c = { s c with prevSibling := some b } ∧
    (nextChipAfter kids s c).1 b = { s b with parent := some p } ∧
    ∀ x, x ≠ p → x ≠ c → x ≠ b → (nextChipAfter kids s c).1 x = s x := by
  rw [nextChipAfter_array_some kids s c p b cs hprev hpar hkp hj]
  refine ⟨rfl, ?_, ?_, ?_, ?_⟩
  · simp [upd, hbp, hcp, Ne.symm hbp, Ne.symm hcp]
  · simp [upd, hcp, hbc, Ne.symm hbc]
  · simp [upd, hbp, hbc, hcp, hpar]
  · intro x hx1 hx2 hx3
    simp [upd, hx1, hx2, hx3]

theorem nextChipAfter_array_none_facts (kids : Nat → Kids) (s : St) (c p : Nat)
    (cs : List Nat)
    (hprev : (s c).prevSibling = none) (hpar : (s c).parent = some p)
    (hkp : kids p = .karr cs)
    (hj : jsIndex cs ((s p).currentChildIndex - 1) = none)
    (hcp : c ≠ p) :
    (nextChipAfter kids s c).2 = some p ∧
    (nextChipAfter kids s c).1 p =
      { s p with currentChildIndex := (s p).currentChildIndex - 1 } ∧
    ∀ x, x ≠ p → (nextChipAfter kids s c).1 x = s x := by
  rw [nextChipAfter_array_none kids s c p cs hprev hpar hkp hj]
  refine ⟨?_, ?_, ?_⟩
  · simp [upd, hcp, hpar]
  · simp [upd]
  · intro x hx
    simp [upd, hx]

theorem runRender_succ (kids : Nat → Kids) (f : Nat) (s : St) (c : Nat) :
    runRender kids (f + 1) s (some c) =
      (if (s c).phase ≠ ChipPhases.COMPLETE ∧
          ((performChipWork kids s c).1 c).phase = ChipPhases.COMPLETE then
        ((runRender kids f (performChipWork kids s c).1 (performChipWork kids s c).2).1,
         (runRender kids f (performChipWork kids s c).1 (performChipWork kids s c).2).2.1,
         c :: (runRender kids f (performChipWork kids s c).1
           (performChipWork kids s c).2).2.2)
      else
        ((runRender kids f (performChipWork kids s c).1 (performChipWork kids s c).2).1,
         (runRender kids f (performChipWork kids s c).1 (performChipWork kids s c).2).2.1,
         (runRender kids f (performChipWork kids s c).1
           (performChipWork kids s c).2).2.2)) := by
  simp only [runRender]

theorem runRender_bubble_eq (kids : Nat → Kids) (s : St) (c : Nat)
    (hph : (s c).phase = ChipPhases.INITIALIZE) :
    runRender kids 1 s (some c) =
      ((nextChipAfter kids (upd s c { s c with phase := ChipPhases.COMPLETE }) c).1,
       (nextChipAfter kids (upd s c { s c with phase := ChipPhases.COMPLETE }) c).2,
       [c]) := by
  have hstep : performChipWork kids s c =
      nextChipAfter kids (upd s c { s c with phase := ChipPhases.COMPLETE }) c := by
    rw [performChipWork_bubble kids s c hph]
    rfl
  rw [runRender_succ, hstep]
  rw [if_pos ⟨by simp [hph], by rw [nextChipAfter_phase]; simp⟩]
  simp [runRender]

theorem runRender_leafComplete_eq (kids : Nat → Kids) (s : St) (c : Nat)
    (hph : (s c).phase = ChipPhases.PENDING)
    (hlast : (s c).lastChild = none)
    (hkid : getLastChipChild (kids c) = none) :
    runRender kids 1 s (some c) =
      ((nextChipAfter kids (upd s c { s c with phase := ChipPhases.COMPLETE }) c).1,
       (nextChipAfter kids (upd s c { s c with phase := ChipPhases.COMPLETE }) c).2,
       [c]) := by
  have hstep : performChipWork kids s c =
      nextChipAfter kids (upd s c { s c with phase := ChipPhases.COMPLETE }) c := by
    rw [performChipWork_leaf kids s c hph hlast hkid]
    rfl
  rw [runRender_succ, hstep]
  rw [if_pos ⟨by simp [hph], by rw [nextChipAfter_phase]; simp⟩]
  simp [runRender]

theorem runRender_descend_eq (kids : Nat → Kids) (s : St) (c lc : Nat)
    (hnext : (performChipWork kids s c).2 = some lc)
    (hinit : ((performChipWork kids s c).1 c).phase = ChipPhases.INITIALIZE) :
    runRender kids 1 s (some c) = ((performChipWork kids s c).1, some lc, []) := by
  rw [runRender_succ]
  rw [if_neg]
  · rw [hnext]
    simp [runRender]
  · intro hcond
    rw [hinit] at hcond
    exact absurd hcond.2 (by simp)

/-- Big-step behaviour of the work loop on a fresh subtree: some fuel `f` runs the
subtree rooted at `T` to an intermediate heap `sMid` in which exactly the subtree's
chips turned COMPLETE, and the run's last action is the `nextChipAfter` selection on
the root; the completion trace is exactly the reverse post-order of `T`. -/
abbrev TreeConc (kids : Nat → Kids) (T : CTree) (s : St) : Prop :=
  ∃ f sMid,
    (∀ x, x ∉ idsT T → sMid x = s x) ∧
    (∀ x ∈ idsT T, (sMid x).phase = ChipPhases.COMPLETE) ∧
    (sMid T.id).prevSibling = none ∧
    (sMid T.id).parent = (s T.id).parent ∧
    runRender kids f s (some T.id) =
      ((nextChipAfter kids sMid T.id).1, (nextChipAfter kids sMid T.id).2, rpostT T)

abbrev TreeP (n : Nat) : Prop := ∀ (kids : Nat → Kids) (T : CTree) (s : St),
  szT T ≤ n → agreesT kids T = true → (idsT T).Nodup →
  (∀ x ∈ idsT T, freshAt s x) → TreeConc kids T s

/-- Big-step behaviour of the work loop on the unprocessed prefix `pre ++ [d]` of a
children array (the loop consumes the array from its tail): starting at the last
unprocessed child `d` with the parent's `currentChildIndex` pointing at it, the loop
completes every chip of the prefix in reverse post-order, leaves the parent's index
at `-1` and hands control back to the parent `i`. -/
abbrev ForestP (n : Nat) : Prop := ∀ (kids : Nat → Kids) (pre : List CTree)
    (d : CTree) (i : Nat) (rest : List Nat) (s : St),
  szL (pre ++ [d]) ≤ n →
  kids i = Kids.karr ((pre ++ [d]).map CTree.id ++ rest) →
  agreesL kids (pre ++ [d]) = true →
  (idsL (pre ++ [d])).Nodup →
  i ∉ idsL (pre ++ [d]) →
  (∀ x ∈ idsL (pre ++ [d]), freshAt s x) →
  (s d.id).parent = some i →
  (s i).currentChildIndex = (pre.length : Int) →
  ∃ g sEnd,
    (∀ x, x ∉ idsL (pre ++ [d]) → x ≠ i → sEnd x = s x) ∧
    (∀ x ∈ idsL (pre ++ [d]), (sEnd x).phase = ChipPhases.COMPLETE) ∧
    sEnd i = { s i with currentChildIndex := -1 } ∧
    runRender kids g s (some d.id) = (sEnd, some i, rpostL (pre ++ [d]))

theorem runMaster : ∀ (n : Nat), TreeP n ∧ ForestP n := by
  intro n
  induction n using Nat.strong_induction_on with
  | _ n ih =>
  have htree : TreeP n := by
    intro kids T s hsz hagree hnd hfresh
    cases T with
    | leaf i =>
        have hk : kids i = Kids.knone := by simpa [agreesT] using hagree
        obtain ⟨hph, hprev, hlast⟩ := hfresh i (by simp [idsT])
        refine ⟨1, upd s i { s i with phase := ChipPhases.COMPLETE }, ?_, ?_, ?_, ?_, ?_⟩
        · intro x hx
          have hxi : x ≠ i := by simpa [idsT] using hx
          exact upd_other s i _ hxi
        · intro x hx
          have hxi : x = i := by simpa [idsT] using hx
          subst hxi
          simp
        · simp [CTree.id, hprev]
        · simp [CTree.id]
        · simp only [CTree.id, rpostT]
          rw [runRender_leafComplete_eq kids s i hph hlast (by rw [hk]; rfl)]
    | one i c =>
        obtain ⟨hki, hagc⟩ : kids i = Kids.ksingle c.id ∧ agreesT kids c = true := by
          simpa [agreesT] using hagree
        obtain ⟨hni, hndc⟩ : i ∉ idsT c ∧ (idsT c).Nodup := by
          simpa [idsT, List.nodup_cons] using hnd
        obtain ⟨hph, hprev, hlast⟩ := hfresh i (by simp [idsT])
        have hmemc : ∀ x ∈ idsT c, x ∈ idsT (CTree.one i c) := by
          intro x hx
          simp [idsT]
          exact Or.inr hx
        have hcne : c.id ≠ i := fun h => hni (h ▸ id_mem_idsT c)
        have hkid : getLastChipChild (kids i) = some c.id := by rw [hki]; rfl
        obtain ⟨hnext, hsdc, hsdi, hfr1⟩ :=
          performChipWork_descend_facts kids s i c.id hph hlast hkid hcne 0
            (by rw [hki])
        have hszc : szT c < n := by
          have h1 : 1 + szT c ≤ n := by simpa [szT] using hsz
          omega
        have hfreshc : ∀ x ∈ idsT c, freshAt (performChipWork kids s i).1 x := by
          intro x hx
          have hxi : x ≠ i := fun h => hni (h ▸ hx)
          unfold freshAt
          by_cases hxc : x = c.id
          · subst hxc
            rw [hsdc]
            simpa using hfresh c.id (hmemc _ hx)
          · rw [hfr1 x hxi hxc]
            exact hfresh x (hmemc x hx)
        obtain ⟨fc, sMidC, hfrC, hphC, hprevC, hparC, hrunC⟩ :=
          (ih (szT c) hszc).1 kids c (performChipWork kids s i).1 (le_refl _)
            hagc hndc hfreshc
        have hparC' : (sMidC c.id).parent = some i := by
          rw [hparC, hsdc]
        have hbnd := nextChipAfter_ksingle kids sMidC c.id i c.id hprevC hparC' hki
        rw [hbnd] at hrunC
        dsimp only [] at hrunC
        have hsmidI : sMidC i = (performChipWork kids s i).1 i := hfrC i hni
        have hphI : (sMidC i).phase = ChipPhases.INITIALIZE := by
          rw [hsmidI, hsdi]
        have hbub := runRender_bubble_eq kids sMidC i hphI
        refine ⟨1 + (fc + 1), upd sMidC i { sMidC i with phase := ChipPhases.COMPLETE },
          ?_, ?_, ?_, ?_, ?_⟩
        · intro x hx
          have hxi : x ≠ i := by
            intro h
            subst h
            exact hx (by simp [idsT])
          have hxc' : x ∉ idsT c := fun h => hx (hmemc x h)
          have hxc : x ≠ c.id := fun h => hxc' (by rw [h]; exact id_mem_idsT c)
          rw [upd_other _ _ _ hxi, hfrC x hxc', hfr1 x hxi hxc]
        · intro x hx
          rcases (by simpa [idsT] using hx : x = i ∨ x ∈ idsT c) with h | h
          · subst h
            simp
          · have hxi : x ≠ i := fun hh => hni (hh ▸ h)
            rw [upd_other _ _ _ hxi]
            exact hphC x h
        · simp only [CTree.id, upd_same]
          rw [hsmidI, hsdi]
          simp [hprev]
        · simp only [CTree.id, upd_same]
          rw [hsmidI, hsdi]
        · simp only [CTree.id, rpostT]
          have hinit : ((performChipWork kids s i).1 i).phase = ChipPhases.INITIALIZE := by
            rw [hsdi]
          have hstep1 := runRender_descend_eq kids s i c.id hnext hinit
          have hadd1 := runRender_add kids 1 (fc + 1) s (some i)
          rw [hstep1] at hadd1
          dsimp only [] at hadd1
          simp only [List.nil_append] at hadd1
          have hadd2 := runRender_add kids fc 1 (performChipWork kids s i).1 (some c.id)
          rw [hrunC] at hadd2
          dsimp only [] at hadd2
          rw [hbub] at hadd2
          dsimp only [] at hadd2
          rw [hadd2] at hadd1
          dsimp only [] at hadd1
          exact hadd1
    | many i cs =>
        obtain ⟨hki, hagcs⟩ : kids i = Kids.karr (cs.map CTree.id) ∧
            agreesL kids cs = true := by
          simpa [agreesT] using hagree
        obtain ⟨hni, hndcs⟩ : i ∉ idsL cs ∧ (idsL cs).Nodup := by
          simpa [idsT, List.nodup_cons] using hnd
        obtain ⟨hph, hprev, hlast⟩ := hfresh i (by simp [idsT])
        have hmemc : ∀ x ∈ idsL cs, x ∈ idsT (CTree.many i cs) := by
          intro x hx
          simp [idsT]
          exact Or.inr hx
        rcases List.eq_nil_or_concat' cs with hcs | ⟨L, dl, hcs⟩
        · subst hcs
          have hkid : getLastChipChild (kids i) = none := by rw [hki]; rfl
          refine ⟨1, upd s i { s i with phase := ChipPhases.COMPLETE }, ?_, ?_, ?_, ?_, ?_⟩
          · intro x hx
            have hxi : x ≠ i := by simpa [idsT, idsL] using hx
            exact upd_other s i _ hxi
          · intro x hx
            have hxi : x = i := by simpa [idsT, idsL] using hx
            subst hxi
            simp
          · simp [CTree.id, hprev]
          · simp [CTree.id]
          · simp only [CTree.id, rpostT, rpostL, List.nil_append]
            rw [runRender_leafComplete_eq kids s i hph hlast hkid]
        · subst hcs
          have hdlmem : dl.id ∈ idsL (L ++ [dl]) := by
            rw [idsL_append, idsL_singleton]
            exact List.mem_append.mpr (Or.inr (id_mem_idsT dl))
          have hdlne : dl.id ≠ i := fun h => hni (h ▸ hdlmem)
          have hkid : getLastChipChild (kids i) = some dl.id := by
            rw [hki]
            show ((L ++ [dl]).map CTree.id).getLast? = some dl.id
            rw [show (L ++ [dl]).map CTree.id = L.map CTree.id ++ [dl.id] by simp]
            exact List.getLast?_concat _
          have hixpf : (match kids i with
              | Kids.karr cs' => ((cs'.length : Int)) - 1
              | _ => 0) = (L.length : Int) := by
            rw [hki]
            show (((L ++ [dl]).map CTree.id).length : Int) - 1 = (L.length : Int)
            simp only [List.length_map, List.length_append, List.length_singleton]
            push_cast
            ring
          obtain ⟨hnext, hsdl, hsdi, hfr1⟩ :=
            performChipWork_descend_facts kids s i dl.id hph hlast hkid hdlne
              ((L.length : Int)) hixpf
          have hszf : szL (L ++ [dl]) < n := by
            have h1 : 1 + szL (L ++ [dl]) ≤ n := by simpa [szT] using hsz
            omega
          have hki2 : kids i = Kids.karr ((L ++ [dl]).map CTree.id ++ []) := by
            rw [hki, List.append_nil]
          have hfresh2 : ∀ x ∈ idsL (L ++ [dl]),
              freshAt (performChipWork kids s i).1 x := by
            intro x hx
            have hxi : x ≠ i := fun h => hni (h ▸ hx)
            unfold freshAt
            by_cases hxd : x = dl.id
            · subst hxd
              rw [hsdl]
              simpa using hfresh dl.id (hmemc _ hx)
            · rw [hfr1 x hxi hxd]
              exact hfresh x (hmemc x hx)
          have hdpar2 : ((performChipWork kids s i).1 dl.id).parent = some i := by
            rw [hsdl]
          have hcci2 : ((performChipWork kids s i).1 i).currentChildIndex =
              (L.length : Int) := by
            rw [hsdi]
          obtain ⟨g, sEnd, hfrE, hphE, hiE, hrunE⟩ :=
            (ih (szL (L ++ [dl])) hszf).2 kids L dl i [] (performChipWork kids s i).1
              (le_refl _) hki2 hagcs hndcs hni hfresh2 hdpar2 hcci2
          have hphEnd : (sEnd i).phase = ChipPhases.INITIALIZE := by
            simp [hiE, hsdi]
          have hbub := runRender_bubble_eq kids sEnd i hphEnd
          refine ⟨1 + (g + 1), upd sEnd i { sEnd i with phase := ChipPhases.COMPLETE },
            ?_, ?_, ?_, ?_, ?_⟩
          · intro x hx
            have hxi : x ≠ i := by
              intro h
              subst h
              exact hx (by simp [idsT])
            have hxc' : x ∉ idsL (L ++ [dl]) := fun h => hx (hmemc x h)
            have hxd : x ≠ dl.id := fun h => hxc' (by rw [h]; exact hdlmem)
            rw [upd_other _ _ _ hxi, hfrE x hxc' hxi, hfr1 x hxi hxd]
          · intro x hx
            rcases (by simpa [idsT] using hx : x = i ∨ x ∈ idsL (L ++ [dl])) with h | h
            · subst h
              simp
            · have hxi : x ≠ i := fun hh => hni (hh ▸ h)
              rw [upd_other _ _ _ hxi]
              exact hphE x h
          · simp only [CTree.id, upd_same]
            rw [hiE, hsdi]
            simp [hprev]
          · simp only [CTree.id, upd_same]
            rw [hiE, hsdi]
          · simp only [CTree.id, rpostT]
            have hinit : ((performChipWork kids s i).1 i).phase =
                ChipPhases.INITIALIZE := by
              rw [hsdi]
            have hstep1 := runRender_descend_eq kids s i dl.id hnext hinit
            have hadd1 := runRender_add kids 1 (g + 1) s (some i)
            rw [hstep1] at hadd1
            dsimp only [] at hadd1
            simp only [List.nil_append] at hadd1
            have hadd2 := runRender_add kids g 1 (performChipWork kids s i).1
              (some dl.id)
            rw [hrunE] at hadd2
            dsimp only [] at hadd2
            rw [hbub] at hadd2
            dsimp only [] at hadd2
            rw [hadd2] at hadd1
            dsimp only [] at hadd1
            rw [show rpostL (L ++ [dl]) ++ [i] =
              rpostL (L ++ [dl]) ++ [i] from rfl] at hadd1
            exact hadd1
  have hforest : ForestP n := by
    intro kids pre d i rest s hsz hki hag hnd hino hfresh hdpar hcci
    have hids : idsL (pre ++ [d]) = idsL pre ++ idsT d := by
      rw [idsL_append, idsL_singleton]
    have hsz2 : szL (pre ++ [d]) = szL pre + szT d := by
      rw [szL_append, szL_singleton]
    have hagd : agreesT kids d = true ∧ agreesL kids pre = true := by
      have hag' := hag
      rw [agreesL_append, agreesL_singleton, Bool.and_eq_true] at hag'
      exact ⟨hag'.2, hag'.1⟩
    obtain ⟨hndpre, hndd, hdisj⟩ : (idsL pre).Nodup ∧ (idsT d).Nodup ∧
        List.Disjoint (idsL pre) (idsT d) := by
      rw [hids] at hnd
      exact List.nodup_append.mp hnd
    have hdmem : ∀ x ∈ idsT d, x ∈ idsL (pre ++ [d]) := by
      intro x hx
      rw [hids]
      exact List.mem_append.mpr (Or.inr hx)
    have hpmem : ∀ x ∈ idsL pre, x ∈ idsL (pre ++ [d]) := by
      intro x hx
      rw [hids]
      exact List.mem_append.mpr (Or.inl hx)
    have hino_d : i ∉ idsT d := fun h => hino (hdmem _ h)
    have hino_p : i ∉ idsL pre := fun h => hino (hpmem _ h)
    rw [hsz2] at hsz
    have hszd : szT d ≤ n := by omega
    obtain ⟨fd, sMidD, hfrD, hphD, hprevD, hparD, hrunD⟩ :=
      htree kids d s hszd hagd.1 hndd (fun x hx => hfresh x (hdmem x hx))
    have hparD' : (sMidD d.id).parent = some i := by
      rw [hparD]
      exact hdpar
    have hsmI : sMidD i = s i := hfrD i hino_d
    have hdne_i : d.id ≠ i := fun h => hino_d (h ▸ id_mem_idsT d)
    rcases List.eq_nil_or_concat' pre with hpre | ⟨L, d2, hpre⟩
    · subst hpre
      have hmem' : ∀ x, x ∈ idsL ([] ++ [d]) ↔ x ∈ idsT d := by
        intro x
        rw [hids]
        simp [idsL]
      have hcciI : (sMidD i).currentChildIndex - 1 = -1 := by
        rw [hsmI, hcci]
        simp
      have hjs : jsIndex (([] ++ [d]).map CTree.id ++ rest)
          ((sMidD i).currentChildIndex - 1) = none := by
        rw [hcciI]
        exact jsIndex_neg (by omega)
      obtain ⟨hn2, hnp, hnfr⟩ :=
        nextChipAfter_array_none_facts kids sMidD d.id i _ hprevD hparD' hki hjs hdne_i
      refine ⟨fd, (nextChipAfter kids sMidD d.id).1, ?_, ?_, ?_, ?_⟩
      · intro x hx hxi
        have hxd : x ∉ idsT d := fun h => hx ((hmem' x).mpr h)
        rw [hnfr x hxi, hfrD x hxd]
      · intro x hx
        have hxd : x ∈ idsT d := (hmem' x).mp hx
        have hxi : x ≠ i := fun h => hino_d (h ▸ hxd)
        rw [hnfr x hxi]
        exact hphD x hxd
      · rw [hnp, hcciI, hsmI]
      · rw [hrunD, hn2]
        simp [rpostL_singleton]
    · subst hpre
      have hd2mem : d2.id ∈ idsL (L ++ [d2]) := by
        rw [idsL_append, idsL_singleton]
        exact List.mem_append.mpr (Or.inr (id_mem_idsT d2))
      have hd2ne_i : d2.id ≠ i := fun h => hino_p (h ▸ hd2mem)
      have hd2ne_d : d2.id ≠ d.id := by
        intro h
        exact hdisj hd2mem (by rw [h]; exact id_mem_idsT d)
      have hcciI : (sMidD i).currentChildIndex - 1 = (L.length : Int) := by
        rw [hsmI, hcci]
        simp only [List.length_append, List.length_singleton]
        push_cast
        ring
      have hjs : jsIndex (((L ++ [d2]) ++ [d]).map CTree.id ++ rest)
          ((sMidD i).currentChildIndex - 1) = some d2.id := by
        rw [hcciI, show (((L ++ [d2]) ++ [d]).map CTree.id ++ rest) =
          (L.map CTree.id) ++ (d2.id :: (d.id :: rest)) by simp]
        have hjx := jsIndex_append_cons (L.map CTree.id) d2.id (d.id :: rest)
        simpa using hjx
      obtain ⟨hn2, hnp, hnc, hnb, hnfr⟩ :=
        nextChipAfter_array_some_facts kids sMidD d.id i d2.id _ hprevD hparD' hki hjs
          hdne_i hd2ne_i hd2ne_d
      rw [hn2] at hrunD
      have hmlt : szL (L ++ [d2]) < n := by
        have h1 : 1 ≤ szT d := szT_pos d
        omega
      have hki2 : kids i = Kids.karr ((L ++ [d2]).map CTree.id ++ (d.id :: rest)) := by
        rw [hki]
        congr 1
        simp
      have hfresh2 : ∀ x ∈ idsL (L ++ [d2]),
          freshAt (nextChipAfter kids sMidD d.id).1 x := by
        intro x hx
        have hxi : x ≠ i := fun h => hino_p (h ▸ hx)
        have hxd : x ∉ idsT d := fun h => hdisj hx h
        have hxdid : x ≠ d.id := fun h => hxd (by rw [h]; exact id_mem_idsT d)
        unfold freshAt
        by_cases hxd2 : x = d2.id
        · subst hxd2
          rw [hnb, hfrD d2.id hxd]
          simpa using hfresh d2.id (hpmem _ hx)
        · rw [hnfr x hxi hxdid hxd2, hfrD x hxd]
          exact hfresh x (hpmem _ hx)
      have hdpar2 : ((nextChipAfter kids sMidD d.id).1 d2.id).parent = some i := by
        rw [hnb]
      have hcci2 : ((nextChipAfter kids sMidD d.id).1 i).currentChildIndex =
          (L.length : Int) := by
        rw [hnp]
        simpa using hcciI
      obtain ⟨g2, sEnd, hfrE, hphE, hiE, hrunE⟩ :=
        (ih (szL (L ++ [d2])) hmlt).2 kids L d2 i (d.id :: rest)
          (nextChipAfter kids sMidD d.id).1 (le_refl _) hki2 hagd.2 hndpre hino_p
          hfresh2 hdpar2 hcci2
      have hadd := runRender_add kids fd g2 s (some d.id)
      rw [hrunD] at hadd
      dsimp only [] at hadd
      rw [hrunE] at hadd
      dsimp only [] at hadd
      refine ⟨fd + g2, sEnd, ?_, ?_, ?_, ?_⟩
      · intro x hx hxi
        have hx1 : x ∉ idsL (L ++ [d2]) := fun h => hx (hpmem _ h)
        have hx2 : x ∉ idsT d := fun h => hx (hdmem _ h)
        have hxdid : x ≠ d.id := fun h => hx2 (by rw [h]; exact id_mem_idsT d)
        have hxd2 : x ≠ d2.id := fun h => hx1 (by rw [h]; exact hd2mem)
        rw [hfrE x hx1 hxi, hnfr x hxi hxdid hxd2, hfrD x hx2]
      · intro x hx
        rw [hids] at hx
        rcases List.mem_append.mp hx with h | h
        · exact hphE x h
        · have hx1 : x ∉ idsL (L ++ [d2]) := fun hh => hdisj hh h
          have hxi : x ≠ i := fun hh => hino_d (hh ▸ h)
          rw [hfrE x hx1 hxi]
          by_cases hxdid : x = d.id
          · subst hxdid
            rw [hnc]
            simpa using hphD d.id h
          · have hxd2 : x ≠ d2.id := fun hh => hx1 (by rw [hh]; exact hd2mem)
            rw [hnfr x hxi hxdid hxd2]
            exact hphD x h
      · rw [hiE, hnp, hcciI, hsmI]
      · rw [hadd, rpostL_append (L ++ [d2]) [d], rpostL_singleton]
  exact ⟨htree, hforest⟩

end Render

namespace Reconcile

/-- `UnitTypes`/chip types from chip.ts. -/
inductive ChipTypes where
  | NATIVE_DOM
  | RESERVED_COMPONENT
  | CUSTOM_COMPONENT
  | CONDITION
  | FRAGMENT
  | INVALID_NODE
deriving DecidableEq, Repr

/-- JS literal values (the results of prop getters and static prop values); only
identity (`!==`) of literals matters to the engine, so they are abstracted as
naturals. -/
abbrev Lit := Nat

/-- A chip property value: either a static literal or a dynamic value getter
(`isFunction(value)` distinguishes the two in the source).  A dynamic getter carries
the literal cached on it from its last run (`value.value`, read by
`getPropLiteralValue`) and the literal a fresh run returns (the `literal` computed by
`createRenderEffectForProp`). -/
inductive PV where
  | stat (v : Lit)
  | dyn (cached : Lit) (fresh : Lit)
deriving DecidableEq, Repr

/-- A chip's `props` record: association list with the record's key order. -/
abbrev Props := List (String × PV)

/-- A value in the record returned by `reconcileProps`: either a literal to patch or
the `PROP_TO_DELETE` sentinel.  Modelled from the spec: `PROP_TO_DELETE` is imported
from commit.ts (not in src); it is a unique sentinel marking a property for removal,
distinct from every literal. -/
inductive DV where
  | v (x : Lit)
  | toDelete
deriving DecidableEq, Repr

/-- Modelled from the spec: `getPropLiteralValue` is imported from chip.ts but its
body is not in src.  Per the spec's property-diff description, it yields the literal
of a property value: a static value itself, or the literal cached on a dynamic
getter. -/
def getPropLiteralValue : PV → Lit
  | .stat v => v
  | .dyn cached _ => cached

/-- The literal `reconcileProps` compares for a new-side property: for a dynamic
getter the source replaces `value` with the result of `createRenderEffectForProp`,
which runs the getter once and returns the fresh literal; a static value is used
directly. -/
def newPropLiteral : PV → Lit
  | .stat v => v
  | .dyn _ fresh => fresh

/-- Effect bookkeeping performed while diffing props: a render effect is created for
each new-side dynamic prop (`createRenderEffectForProp(newChip.wormhole, ...)`), and
each old-side dynamic prop's effect is released to the abandoned list
(`cacheAbandonedEffect(oldValue.effect, chipRoot)`; the spec attaches the owning
effect to each dynamic getter). -/
inductive PropEv where
  | effectCreated (propName : String)
  | effectAbandoned (propName : String)
deriving DecidableEq, Repr

/-- First loop of `reconcileProps` (workRender.ts 1050-1076): walk the new props in
record order; a dynamic value is replaced by its freshly computed literal (and an
effect-creation is recorded); a prop also present in the old props contributes to the
result only when the literals differ (`value !== oldValue`); a prop only present in
the new props always contributes. -/
def reconcilePropsNew : Props → Props → List (String × DV) × List PropEv
  | [], _ => ([], [])
  | (name, pv) :: rest, oldProps =>
      let r := reconcilePropsNew rest oldProps
      let evs1 : List PropEv :=
        match pv with
        | .dyn _ _ => [.effectCreated name]
        | .stat _ => []
      let value : Lit := newPropLiteral pv
      match oldProps.lookup name with
      | some ov =>
          let evs2 : List PropEv :=
            match ov with
            | .dyn _ _ => [.effectAbandoned name]
            | .stat _ => []
          if value ≠ getPropLiteralValue ov then
            ((name, DV.v value) :: r.1, evs1 ++ evs2 ++ r.2)
          else
            (r.1, evs1 ++ evs2 ++ r.2)
      | none => ((name, DV.v value) :: r.1, evs1 ++ r.2)

/-- Second loop of `reconcileProps` (workRender.ts 1079-1090): every old prop absent
from the new props is marked with the delete sentinel (and its effect, when dynamic,
is released). -/
def reconcilePropsOld (newProps : Props) : Props → List (String × DV) × List PropEv
  | [] => ([], [])
  | (name, pv) :: rest =>
      let r := reconcilePropsOld newProps rest
      match newProps.lookup name with
      | some _ => r
      | none =>
          let evs : List PropEv :=
            match pv with
            | .dyn _ _ => [.effectAbandoned name]
            | .stat _ => []
          ((name, DV.toDelete) :: r.1, evs ++ r.2)

/-- `reconcileProps` (workRender.ts 1041-1093), pure core: the diff record built from
the new and the old chip's props (the source receives the two chips and reads
`newChip.props` / `oldChip.props`), together with the effect bookkeeping events in
execution order. -/
def reconcileProps (newProps oldProps : Props) : List (String × DV) × List PropEv :=
  let a := reconcilePropsNew newProps oldProps
  let b := reconcilePropsOld newProps oldProps
  (a.1 ++ b.1, a.2 ++ b.2)

theorem lookup_append {β : Type} (k : String) (l1 l2 : List (String × β)) :
    List.lookup k (l1 ++ l2) =
      match List.lookup k l1 with
      | some v => some v
      | none => List.lookup k l2 := by
  induction l1 with
  | nil => simp [List.lookup]
  | cons hd tl ih =>
      obtain ⟨a, v⟩ := hd
      cases h : (k == a) with
      | true => simp [List.lookup, h]
      | false => simp [List.lookup, h, ih]

theorem lookup_eq_none_of_not_mem_keys {β : Type} {k : String} :
    ∀ {l : List (String × β)}, k ∉ l.map Prod.fst → List.lookup k l = none := by
  intro l
  induction l with
  | nil => intro _; rfl
  | cons hd tl ih =>
      intro h
      obtain ⟨a, v⟩ := hd
      have hka : k ≠ a := by
        intro he
        exact h (by simp [he])
      have htl : k ∉ tl.map Prod.fst := by
        intro hm
        exact h (by simp [hm])
      simp [List.lookup, beq_false_of_ne hka, ih htl]

theorem lookupNew_none (op : Props) :
    ∀ (np : Props) (name : String), List.lookup name np = none →
      List.lookup name (reconcilePropsNew np op).1 = none := by
  intro np
  induction np with
  | nil => intro name _; rfl
  | cons hd rest ih =>
      intro name h
      obtain ⟨n0, pv0⟩ := hd
      have hne : (name == n0) = false := by
        cases hb : (name == n0) with
        | true => simp [List.lookup, hb] at h
        | false => rfl
      have hrest : List.lookup name rest = none := by
        simpa [List.lookup, hne] using h
      cases hop : List.lookup n0 op with
      | some ov =>
          by_cases hv : newPropLiteral pv0 ≠ getPropLiteralValue ov
          · simp [reconcilePropsNew, hop, hv, List.lookup, hne, ih name hrest]
          · simp [reconcilePropsNew, hop, hv, ih name hrest]
      | none => simp [reconcilePropsNew, hop, List.lookup, hne, ih name hrest]

theorem lookupOld_none_of_inNew (np : Props) :
    ∀ (op : Props) (name : String) (pv : PV), List.lookup name np = some pv →
      List.lookup name (reconcilePropsOld np op).1 = none := by
  intro op
  induction op with
  | nil => intro name pv _; rfl
  | cons hd rest ih =>
      intro name pv h
      obtain ⟨n0, pv0⟩ := hd
      cases hnp : List.lookup n0 np with
      | some ov => simp [reconcilePropsOld, hnp, ih name pv h]
      | none =>
          have hne : (name == n0) = false := by
            cases hb : (name == n0) with
            | true =>
                rw [show name = n0 from eq_of_beq hb] at h
                rw [h] at hnp
                cases hnp
            | false => rfl
          simp [reconcilePropsOld, hnp, List.lookup, hne, ih name pv h]

theorem lookupNew_char (op : Props) :
    ∀ (np : Props), (np.map Prod.fst).Nodup → ∀ (name : String),
      List.lookup name (reconcilePropsNew np op).1 =
        match List.lookup name np with
        | some pv =>
            match List.lookup name op with
            | some ov =>
                if newPropLiteral pv ≠ getPropLiteralValue ov then
                  some (DV.v (newPropLiteral pv))
                else none
            | none => some (DV.v (newPropLiteral pv))
        | none => none := by
  intro np
  induction np with
  | nil => intro _ name; rfl
  | cons hd rest ih =>
      intro hnd name
      obtain ⟨n0, pv0⟩ := hd
      have hnd2 : (n0 :: rest.map Prod.fst).Nodup := by simpa using hnd
      have hnd' := List.nodup_cons.mp hnd2
      by_cases hname : name = n0
      · subst hname
        have hrest0 : List.lookup name rest = none :=
          lookup_eq_none_of_not_mem_keys hnd'.1
        cases hop : List.lookup name op with
        | some ov =>
            by_cases hv : newPropLiteral pv0 ≠ getPropLiteralValue ov
            · simp [reconcilePropsNew, hop, hv, List.lookup]
            · simp [reconcilePropsNew, hop, hv, List.lookup,
                lookupNew_none op rest name hrest0]
        | none => simp [reconcilePropsNew, hop, List.lookup]
      · have hne : (name == n0) = false := beq_false_of_ne hname
        have hih := ih hnd'.2 name
        cases hop : List.lookup n0 op with
        | some ov =>
            by_cases hv : newPropLiteral pv0 ≠ getPropLiteralValue ov
            · simp [reconcilePropsNew, hop, hv, List.lookup, hne, hih]
            · simp [reconcilePropsNew, hop, hv, List.lookup, hne, hih]
        | none => simp [reconcilePropsNew, hop, List.lookup, hne, hih]

theorem lookupOld_char (np : Props) :
    ∀ (op : Props) (name : String),
      List.lookup name (reconcilePropsOld np op).1 =
        match List.lookup name np, List.lookup name op with
        | none, some _ => some DV.toDelete
        | _, _ => none := by
  intro op
  induction op with
  | nil =>
      intro name
      cases List.lookup name np <;> rfl
  | cons hd rest ih =>
      intro name
      obtain ⟨n0, pv0⟩ := hd
      by_cases hname : name = n0
      · subst hname
        cases hnp : List.lookup name np with
        | some pv =>
            rw [show reconcilePropsOld np ((name, pv0) :: rest) =
                reconcilePropsOld np rest by simp [reconcilePropsOld, hnp]]
            rw [lookupOld_none_of_inNew np rest name pv hnp]
        | none => simp [reconcilePropsOld, hnp, List.lookup]
      · have hne : (name == n0) = false := beq_false_of_ne hname
        cases hnp : List.lookup n0 np with
        | some pv => simp [reconcilePropsOld, hnp, ih, List.lookup, hne]
        | none => simp [reconcilePropsOld, hnp, List.lookup, hne, ih]

/-- Modelled from the spec: compileFlags.ts is not in src; `STATIC` and
`PREDICTABLE` are distinct bits of the `compileFlags` bitset. -/
def STATIC_FLAG : Nat := 1

/-- Modelled from the spec: the compile-flag bit marking a block whose child
structure is compile-time predictable. -/
def PREDICTABLE_FLAG : Nat := 2

/-- The reconcile-side view of a chip: the fields `workRender.ts` reads or writes
during reconciliation.  `effects` records whether the chip's effect-list accessor
(`chip.effects`) has been initialized (`cacheAbandonedEffect` dereferences
`.next` on `wormhole.effects?.first`, which throws when it is `undefined`).
`inst` is `chip.instance` (`instance` is a Lean keyword): the component instance
reference, `none` for the JS `null`/`undefined` — `createChip` builds chips with
`instance: null` and `cloneChip`'s clone carries no `instance` field at all; only
`initVirtualChip` ever assigns it (instance identity is irrelevant to the engine's
control flow, so an assigned instance is abstracted as the owning chip's id). -/
structure RChip where
  phase : ChipPhases
  parent : Option Nat
  prevSibling : Option Nat
  lastChild : Option Nat
  currentChildIndex : Int
  wormhole : Option Nat
  chipType : ChipTypes
  compileFlags : Nat
  maySkip : Bool
  deletions : Option (List Nat)
  elm : Option Nat
  inst : Option Nat
  children : Kids
  props : Props
  tag : String
  effects : Bool
deriving DecidableEq, Repr

/-- `isSkipReconcile` (workRender.ts 712-721): the chip is skippable when it is
compile-time static and the chip of the current rendering instance (the nearest
enclosing block, module state `currentRenderingInstance`, passed here as its
`compileFlags`) is predictable, or when it carries the `maySkip` hint and has a
wormhole pair.  JS truthiness: a bitwise-and is truthy iff nonzero, and
`chip.maySkip && chip.wormhole` is truthy iff `maySkip` holds and `wormhole` is a
chip. -/
def isSkipReconcile (chip : RChip) (currentRenderingInstanceChipFlags : Nat) : Bool :=
  (decide (chip.compileFlags &&& STATIC_FLAG ≠ 0) &&
    decide (currentRenderingInstanceChipFlags &&& PREDICTABLE_FLAG ≠ 0)) ||
  (chip.maySkip && chip.wormhole.isSome)

/-- `RenderUpdateTypes.PATCH_PROP` = 1. -/
def PATCH_PROP : Nat := 1
/-- `RenderUpdateTypes.CREATE_ELEMENT` = 1 <<< 2. -/
def CREATE_ELEMENT : Nat := 4
/-- `RenderUpdateTypes.MOUNT` = 1 <<< 3. -/
def MOUNT : Nat := 8
/-- `RenderUpdateTypes.UNMOUNT` = 1 <<< 4. -/
def UNMOUNT : Nat := 16

/-- Lifecycle hook kinds used by the reconciler. -/
inductive HookKinds where
  | INIT
  | WILL_MOUNT
  | WILL_UPDATE
  | MOUNTED
  | UPDATED
deriving DecidableEq, Repr

/-- Post-commit callbacks of render payloads, defunctionalized: the CREATE_ELEMENT
payload's `(context, elm) => context.elm = elm`, and the (empty-bodied)
`onPropPatched` closure of `reconcileToGenRenderPayload`. -/
inductive CallbackKind where
  | assignElmToContext
  | onPropPatched
deriving DecidableEq, Repr

/-- The `props` slot of a render payload: a diff record from `reconcileProps` or a
chip's raw props record (mount case). -/
inductive PayloadProps where
  | delta (d : List (String × DV))
  | raw (p : Props)
deriving DecidableEq, Repr

/-- `RenderPayloadNode` (workRender.ts 50-67), minus the queue `next` pointer (the
queue itself is kept by the root, below). -/
structure Payload where
  ptype : Nat
  container : Option Nat
  parentContainer : Option Nat
  anchorContainer : Option Nat
  tag : Option String
  props : Option PayloadProps
  context : Nat
  auxiliaryContext : Option Nat
  callback : Option CallbackKind
deriving DecidableEq, Repr

/-- `createRenderPayloadNode` (workRender.ts 582-606). -/
def createRenderPayloadNode (container parentContainer anchorContainer : Option Nat)
    (ptype : Nat) (context : Nat) (auxiliaryContext : Option Nat) (tag : Option String)
    (props : Option PayloadProps) (callback : Option CallbackKind) : Payload :=
  { ptype := ptype
    container := container
    parentContainer := parentContainer
    anchorContainer := anchorContainer
    tag := tag
    props := props
    context := context
    auxiliaryContext := auxiliaryContext
    callback := callback }

/-- Interleaved record of the reconciler's externally visible actions. -/
inductive REvent where
  | lifecycle (k : HookKinds) (chip : Nat)
  | cachedPayload (p : Payload)
deriving DecidableEq, Repr

/-- Whether a trace event is an `invokeLifecycle` call. -/
def isLifecycleEv : REvent → Bool
  | .lifecycle _ _ => true
  | .cachedPayload _ => false

/-- Tokens put on the root's abandoned-effects queue: a whole chip's effect list, or
a single dynamic prop's effect. -/
inductive AbandonTok where
  | chipEffectsOf (chip : Nat)
  | propEffect (name : String)
deriving DecidableEq, Repr

/-- A job registered with the external scheduler. -/
inductive RJob where
  | reconcileJob (chip : Nat) (needCommit : Bool)
deriving DecidableEq, Repr

/-- The `ChipRoot`-scoped state the reconciler mutates, plus the chip heap:
`renderPayloads` (the root's payload FIFO, kept by the source as a first/last
singly linked queue and appended with `payloads.last = payloads.last.next = payload`,
embedded as the queued list), the abandoned-effects queue, the lifecycle-hook cache,
the scheduler's job queue, and the interleaved action trace. -/
structure RSt where
  chips : Nat → RChip
  payloads : List Payload
  abandoned : List AbandonTok
  hooks : List (HookKinds × Nat)
  jobs : List RJob
  trace : List REvent

/-- Functional update of one chip in the heap. -/
def updChip (m : Nat → RChip) (i : Nat) (v : RChip) : Nat → RChip :=
  fun j => if j = i then v else m j

@[simp] theorem updChip_same (m : Nat → RChip) (i : Nat) (v : RChip) : updChip m i v i = v := by
  simp [updChip]

theorem updChip_other (m : Nat → RChip) (i : Nat) (v : RChip) {j : Nat} (h : j ≠ i) :
    updChip m i v j = m j := by
  simp [updChip, h]

/-- `cacheRenderPayload` (workRender.ts 1141-1162) on a single payload node: append
to the root's payload queue (also recorded in the action trace). -/
def cacheRenderPayload1 (p : Payload) (st : RSt) : RSt :=
  { st with payloads := st.payloads ++ [p], trace := st.trace ++ [.cachedPayload p] }

/-- `cacheRenderPayload` on a payload array: each element is cached in order. -/
def cacheRenderPayloadList (ps : List Payload) (st : RSt) : RSt :=
  ps.foldl (fun acc p => cacheRenderPayload1 p acc) st

/-- `invokeLifecycle(hookKind, instance)` at the reconciler's call sites, recorded
with the chip owning the instance. -/
def invokeLifecycleEv (k : HookKinds) (c : Nat) (st : RSt) : RSt :=
  { st with trace := st.trace ++ [.lifecycle k c] }

/-- `registerLifecycleHook(chipRoot, hookKind, hooks)` at the reconciler's call
sites, recorded with the chip owning the hooks. -/
def registerLifecycleHookEv (k : HookKinds) (c : Nat) (st : RSt) : RSt :=
  { st with hooks := st.hooks ++ [(k, c)] }

/-- `cacheAbandonedEffect` on an already-materialized effect (list): append to the
root's abandoned-effects queue. -/
def cacheAbandonedEffectTok (t : AbandonTok) (st : RSt) : RSt :=
  { st with abandoned := st.abandoned ++ [t] }

/-- Outcomes supplied by the external collaborators: the children each virtual or
component render produces (`createVirtualChipInstance` / `createComponentInstance`
plus the render call, assumed to succeed), the `compileFlags` of the chip of the
module-state `currentRenderingInstance`, and the DOM adapter's `parentNode`. -/
structure Env where
  vrender : Nat → Kids
  criFlags : Nat
  parentNodeOf : Option Nat → Option Nat

/-- `registerOngoingReconcileWork` (workRender.ts 672-706): build the resumable
`reconcileJob` closure for the chip and hand it to the external scheduler's
`registerJob`; the external call may throw, which is the supplied outcome. -/
def registerOngoingReconcileWork (chip : Nat) (needCommit : Bool)
    (registerJobOutcome : Except Unit Unit) (st : RSt) : Except Unit RSt :=
  match registerJobOutcome with
  | .ok _ => .ok { st with jobs := st.jobs ++ [RJob.reconcileJob chip needCommit] }
  | .error e => .error e

/-- The `newChip.wormhole = oldChip` assignment at the head of the `try` block of
`performReconcileWork`. -/
def setWormhole (st : RSt) (newChip oldChip : Nat) : RSt :=
  let linked : RChip := { st.chips newChip with wormhole := some oldChip }
  { st with chips := updChip st.chips newChip linked }

/-- `performReconcileWork` (workRender.ts 656-668):
`try { newChip.wormhole = oldChip; registerOngoingReconcileWork(newChip, chipRoot,
needCommit) } catch (e) { }` — the catch handler is empty, so a registration
exception leaves the already-performed wormhole assignment in place and the function
returns normally. -/
def performReconcileWork (oldChip newChip : Nat) (needCommit : Bool)
    (registerJobOutcome : Except Unit Unit) (st : RSt) : RSt :=
  let st1 : RSt := setWormhole st newChip oldChip
  match registerOngoingReconcileWork newChip needCommit registerJobOutcome st1 with
  | .ok st2 => st2
  | .error _ => st1

/-- Replay of the effect-release and effect-creation events of `reconcileProps` onto
the root state: abandoned prop effects go to the abandoned-effects queue; the created
effects are cached on the wormhole chip's effect list (that list structure is
modelled in the `EffCache` namespace and not tracked here). -/
def applyPropEvents (evs : List PropEv) (st : RSt) : RSt :=
  evs.foldl (fun acc ev =>
    match ev with
    | .effectAbandoned n => cacheAbandonedEffectTok (.propEffect n) acc
    | .effectCreated _ => acc) st

/-- `hasDeletions` (workRender.ts 955-957): `isArray(chip.deletions)`. -/
def hasDeletions (chip : RChip) : Bool :=
  chip.deletions.isSome

/-- `genRenderPayloadsForDeletions` (workRender.ts 1020-1034): one UNMOUNT payload
per collected deletion, plus the deleted chip's effects moved to the abandoned
queue. -/
def genRenderPayloadsForDeletions (env : Env) (dels : List Nat) (st : RSt) : RSt :=
  dels.foldl (fun acc d =>
    let elm := (acc.chips d).elm
    let payload := createRenderPayloadNode elm (env.parentNodeOf elm) none
      UNMOUNT d none none none none
    let acc1 := cacheRenderPayload1 payload acc
    cacheAbandonedEffectTok (.chipEffectsOf d) acc1) st

/-- `reconcileToGenRenderPayload` (workRender.ts 963-1017): with a wormhole pair,
diff the props (`reconcileProps`) and cache one PATCH_PROP payload targeting the old
chip's element; without a pair, cache a PATCH_PROP payload carrying the chip's raw
props followed by a MOUNT payload whose auxiliary context is the `auxiliaryChip`.
`onPropPatched` is the empty callback closure created at the top of the function. -/
def reconcileToGenRenderPayload (st : RSt) (c : Nat) (aux : Option Nat) : RSt :=
  let chip := st.chips c
  match chip.wormhole with
  | some w =>
      let pr := reconcileProps chip.props ((st.chips w).props)
      let st1 := applyPropEvents pr.2 st
      let payload := createRenderPayloadNode ((st1.chips w).elm) none none
        PATCH_PROP c none (some chip.tag) (some (.delta pr.1)) (some .onPropPatched)
      cacheRenderPayload1 payload st1
  | none =>
      let patchPropsPayload := createRenderPayloadNode none none none
        PATCH_PROP c none (some chip.tag) (some (.raw chip.props)) (some .onPropPatched)
      let mountPayload := createRenderPayloadNode none none none
        MOUNT c aux none none none
      cacheRenderPayloadList [patchPropsPayload, mountPayload] st

/-- The next-chip computation at the tail of `completeReconcile` (workRender.ts
854-874), character-for-character the same logic as the tail of `completeChip`:
cached previous sibling if present, else the parent's array children at the
decremented `currentChildIndex`, else the parent. -/
def nextChipAfterReconcile (st1 : RSt) (c : Nat) : RSt × Option Nat :=
  match (st1.chips c).prevSibling with
  | some b =>
      let cached : RChip := { st1.chips c with prevSibling := some b }
      let st2 : RSt := { st1 with chips := updChip st1.chips c cached }
      let reparented : RChip := { st2.chips b with parent := (st2.chips c).parent }
      let st3 : RSt := { st2 with chips := updChip st2.chips b reparented }
      (st3, some b)
  | none =>
      match (st1.chips c).parent with
      | some p =>
          match (st1.chips p).children with
          | .karr cs =>
              let i := (st1.chips p).currentChildIndex - 1
              let moved : RChip := { st1.chips p with currentChildIndex := i }
              let st2 : RSt := { st1 with chips := updChip st1.chips p moved }
              match Render.jsIndex cs i with
              | some b =>
                  let cached : RChip := { st2.chips c with prevSibling := some b }
                  let st3 : RSt := { st2 with chips := updChip st2.chips c cached }
                  let reparented : RChip := { st3.chips b with parent := (st3.chips c).parent }
                  let st4 : RSt := { st3 with chips := updChip st3.chips b reparented }
                  (st4, some b)
              | none => (st2, (st2.chips c).parent)
          | _ => (st1, (st1.chips c).parent)
      | none => (st1, (st1.chips c).parent)

/-- The deletion flush at the head of the non-skipped branch of `completeReconcile`
(workRender.ts 825-828): `if (hasDeletions(chip))
genRenderPayloadsForDeletions(chip.deletions, chipRoot)`. -/
def completeReconcileDeletions (env : Env) (st0 : RSt) (c : Nat) : RSt :=
  if hasDeletions (st0.chips c) then
    genRenderPayloadsForDeletions env ((st0.chips c).deletions.getD []) st0
  else st0

/-- The lifecycle caching at the tail of the non-skipped branch of
`completeReconcile` (workRender.ts 831-851): a component chip's UPDATED (pair
present) or MOUNTED (no pair) hooks are registered into the root's hook cache. -/
def completeReconcileHookCache (stB : RSt) (c : Nat) : RSt :=
  if (stB.chips c).chipType = ChipTypes.CUSTOM_COMPONENT then
    match (stB.chips c).wormhole with
    | some _ => registerLifecycleHookEv .UPDATED c stB
    | none => registerLifecycleHookEv .MOUNTED c stB
  else stB

/-- The diff/lifecycle body of `completeReconcile` (workRender.ts 821-852), run on
the state in which the chip has been marked COMPLETE: unless the node was skipped,
flush queued child deletions, diff the node against its pair, and cache the
component's updated-or-mounted lifecycle into the root's hook cache. -/
def completeReconcileWork (env : Env) (st0 : RSt) (c : Nat) (auxiliaryChip : Option Nat)
    (isSkipable : Bool) : RSt :=
  if isSkipable then st0
  else
    completeReconcileHookCache
      (reconcileToGenRenderPayload (completeReconcileDeletions env st0 c) c auxiliaryChip) c

/-- `completeReconcile` (workRender.ts 815-875): mark the chip COMPLETE, perform the
diff/lifecycle work unless skipped, then select the next chip exactly as
`completeChip` does. -/
def completeReconcile (env : Env) (st : RSt) (c : Nat) (auxiliaryChip : Option Nat)
    (isSkipable : Bool) : RSt × Option Nat :=
  let completed : RChip := { st.chips c with phase := .COMPLETE }
  let st0 : RSt := { st with chips := updChip st.chips c completed }
  nextChipAfterReconcile (completeReconcileWork env st0 c auxiliaryChip isSkipable) c

/-- `initVirtualChip` (workRender.ts 884-911): a condition, fragment or component
chip gets its fresh children from its (virtual or component) render — for condition
and fragment chips via the collect-only first run of the render effect created by
`initConditionChip` / `initIterableChip`, for component chips via
`createComponentInstance` plus the render call bracketed by `disableCollecting` /
`enableCollecting`, with `chip.instance = createComponentInstance(...)` assigned in
that branch — and when a wormhole pair exists, the old chip's effects are
released to the abandoned queue.  `cacheAbandonedEffect(wormhole.effects?.first,
chipRoot)` dereferences `.next` on its argument, so an uninitialized old effect list
(`wormhole.effects` undefined, argument `undefined`) throws a TypeError, embedded as
`.error` carrying the heap state at the throw. -/
def initVirtualChip (env : Env) (st : RSt) (c : Nat) : Except RSt RSt :=
  let chip := st.chips c
  let st1 : RSt :=
    match chip.chipType with
    | .CONDITION =>
        let rendered : RChip := { chip with children := env.vrender c }
        { st with chips := updChip st.chips c rendered }
    | .FRAGMENT =>
        let rendered : RChip := { chip with children := env.vrender c }
        { st with chips := updChip st.chips c rendered }
    | .CUSTOM_COMPONENT =>
        let rendered : RChip := { chip with inst := some c, children := env.vrender c }
        { st with chips := updChip st.chips c rendered }
    | _ => st
  match chip.wormhole with
  | some w =>
      if (st1.chips w).effects then .ok (cacheAbandonedEffectTok (.chipEffectsOf w) st1)
      else .error st1
  | none => .ok st1

/-- Result of one reconcile work unit: the next chip to process, or a thrown
TypeError escaping the unit (the heap mutations made before the throw persist). -/
inductive RStep where
  | ok (st : RSt) (next : Option Nat)
  | thrown (st : RSt)

/-- The root/heap state carried by a reconcile step result. -/
def RStep.state : RStep → RSt
  | .ok st _ => st
  | .thrown st => st

/-- Whether the step ended in a thrown TypeError. -/
def RStep.isThrown : RStep → Bool
  | .ok _ _ => false
  | .thrown _ => true

/-- The lifecycle/payload branch of `initReconcile` (workRender.ts 761-788), run on
the state `initVirtualChip` left.  `componentInst` is the `const componentInst =
(chip.chipType === CUSTOM_COMPONENT) ? chip.instance : null` captured at the head of
`initReconcile` (workRender.ts 749) — before `initVirtualChip` assigns
`chip.instance` — and every lifecycle call is guarded by its truthiness
(`componentInst && invokeLifecycle(...)`): without a wormhole pair, fire INIT (guard
permitting), cache one CREATE_ELEMENT payload whose post-commit callback writes the
created element back onto the chip context (`(context, elm) => context.elm = elm`),
and fire WILL_MOUNT (guard permitting); with a pair, fire WILL_UPDATE (guard
permitting). -/
def initReconcileLifecyclePayload (componentInst : Option Nat) (st1 : RSt)
    (c : Nat) : RSt :=
  match (st1.chips c).wormhole with
  | none =>
      let st2a := if componentInst.isSome then invokeLifecycleEv .INIT c st1 else st1
      let payload := createRenderPayloadNode none none none
        CREATE_ELEMENT c none (some ((st2a.chips c).tag)) none
        (some .assignElmToContext)
      let st2b := cacheRenderPayload1 payload st2a
      if componentInst.isSome then invokeLifecycleEv .WILL_MOUNT c st2b else st2b
  | some _ =>
      if componentInst.isSome then invokeLifecycleEv .WILL_UPDATE c st1 else st1

/-- The descend step at the tail of `initReconcile` (workRender.ts 790-801): link the
last chip child to the parent, initialize `currentChildIndex`, and call
`mapChipChildren(wormhole.children, children)` — whose argument `wormhole.children`
throws a TypeError when `wormhole` is null (`mapChipChildren` itself has an empty
body) — then descend; with no chip child, complete the chip on the spot.
`children` and `wormhole` are the values destructured from the chip before this
step. -/
def initReconcileNext (env : Env) (st2 : RSt) (c : Nat) (lastChip : Option Nat)
    (children : Kids) (wormhole : Option Nat) : RStep :=
  match Render.getLastChipChild children with
  | some lc =>
      let linked : RChip := { st2.chips c with lastChild := some lc }
      let st3 : RSt := { st2 with chips := updChip st2.chips c linked }
      let reparented : RChip := { st3.chips lc with parent := some c }
      let st4 : RSt := { st3 with chips := updChip st3.chips lc reparented }
      let ix : Int :=
        match children with
        | .karr cs => (cs.length : Int) - 1
        | _ => 0
      let cursor : RChip := { st4.chips c with currentChildIndex := ix }
      let st5 : RSt := { st4 with chips := updChip st4.chips c cursor }
      match wormhole with
      | some _ => .ok st5 (some lc)
      | none => .thrown st5
  | none =>
      let r := completeReconcile env st2 c lastChip false
      .ok r.1 r.2

/-- The body of `initReconcile` after the INITIALIZE phase assignment, on the
phase-marked state `st0`.  First the component-instance guard is captured
(workRender.ts 749: `const componentInst = (chip.chipType === CUSTOM_COMPONENT) ?
chip.instance : null`) — from the entry state, before `initVirtualChip` assigns
`chip.instance`.  A skippable chip then goes straight to `completeReconcile` with
`isSkipable = true`; otherwise run the virtual render (`initVirtualChip`, which can
throw), run the lifecycle/payload branch with the captured guard, and descend into
the last chip child or complete on the spot. -/
def initReconcileBody (env : Env) (st0 : RSt) (c : Nat) (lastChip : Option Nat) :
    RStep :=
  let componentInst : Option Nat :=
    if (st0.chips c).chipType = ChipTypes.CUSTOM_COMPONENT then (st0.chips c).inst
    else none
  if isSkipReconcile (st0.chips c) env.criFlags then
    let r := completeReconcile env st0 c lastChip true
    .ok r.1 r.2
  else
    match initVirtualChip env st0 c with
    | .error stX => .thrown stX
    | .ok st1 =>
        initReconcileNext env (initReconcileLifecyclePayload componentInst st1 c) c
          lastChip ((st1.chips c).children) ((st1.chips c).wormhole)

/-- The `chip.phase = ChipPhases.INITIALIZE` assignment at the head of
`initReconcile`. -/
def markInitialized (st : RSt) (c : Nat) : RSt :=
  let started : RChip := { st.chips c with phase := .INITIALIZE }
  { st with chips := updChip st.chips c started }

/-- `initReconcile` (workRender.ts 747-805): mark the chip INITIALIZE, then run the
skip check, virtual render, lifecycle/payload branch and descend step. -/
def initReconcile (env : Env) (st : RSt) (c : Nat) (lastChip : Option Nat) : RStep :=
  initReconcileBody env (markInitialized st c) c lastChip

/-- Post-commit callback semantics (`performCommitWork` invokes each payload's
callback right after its own mutation): `assignElmToContext` is
`(context, elm) => context.elm = elm`; `onPropPatched` has an empty body. -/
def runCallback : CallbackKind → RSt → Nat → Nat → RSt
  | .assignElmToContext, st, ctx, elm =>
      let written : RChip := { st.chips ctx with elm := some elm }
      { st with chips := updChip st.chips ctx written }
  | .onPropPatched, st, _, _ => st

theorem applyPropEvents_fields : ∀ (evs : List PropEv) (st : RSt),
    (applyPropEvents evs st).payloads = st.payloads
    ∧ (applyPropEvents evs st).trace = st.trace
    ∧ (applyPropEvents evs st).chips = st.chips := by
  intro evs
  induction evs with
  | nil => intro st; exact ⟨rfl, rfl, rfl⟩
  | cons ev rest ih =>
      intro st
      cases ev with
      | effectAbandoned n =>
          simpa [applyPropEvents, List.foldl, cacheAbandonedEffectTok]
            using ih (cacheAbandonedEffectTok (.propEffect n) st)
      | effectCreated n => simpa [applyPropEvents, List.foldl] using ih st

theorem genRenderPayloadsForDeletions_delta (env : Env) : ∀ (dels : List Nat) (st : RSt),
    ∃ Δ tl, (genRenderPayloadsForDeletions env dels st).payloads = st.payloads ++ Δ
      ∧ (∀ p ∈ Δ, p.ptype = UNMOUNT)
      ∧ (genRenderPayloadsForDeletions env dels st).trace = st.trace ++ tl := by
  intro dels
  induction dels with
  | nil => intro st; exact ⟨[], [], by simp [genRenderPayloadsForDeletions], by simp, by
      simp [genRenderPayloadsForDeletions]⟩
  | cons d rest ih =>
      intro st
      have hstep : genRenderPayloadsForDeletions env (d :: rest) st =
          genRenderPayloadsForDeletions env rest
            (cacheAbandonedEffectTok (.chipEffectsOf d)
              (cacheRenderPayload1
                (createRenderPayloadNode ((st.chips d).elm)
                  (env.parentNodeOf ((st.chips d).elm)) none UNMOUNT d none none none none)
                st)) := by
        simp [genRenderPayloadsForDeletions, List.foldl]
      obtain ⟨Δ, tl, h1, h2, h3⟩ := ih (cacheAbandonedEffectTok (.chipEffectsOf d)
        (cacheRenderPayload1 (createRenderPayloadNode ((st.chips d).elm)
          (env.parentNodeOf ((st.chips d).elm)) none UNMOUNT d none none none none) st))
      refine ⟨createRenderPayloadNode ((st.chips d).elm)
        (env.parentNodeOf ((st.chips d).elm)) none UNMOUNT d none none none none :: Δ,
        REvent.cachedPayload (createRenderPayloadNode ((st.chips d).elm)
          (env.parentNodeOf ((st.chips d).elm)) none UNMOUNT d none none none none) :: tl,
        ?_, ?_, ?_⟩
      · rw [hstep, h1]
        simp [cacheAbandonedEffectTok, cacheRenderPayload1]
      · intro p hp
        rcases List.mem_cons.mp hp with h | h
        · subst h; rfl
        · exact h2 p h
      · rw [hstep, h3]
        simp [cacheAbandonedEffectTok, cacheRenderPayload1]

theorem reconcileToGenRenderPayload_delta (st : RSt) (c : Nat) (aux : Option Nat) :
    ∃ Δ tl, (reconcileToGenRenderPayload st c aux).payloads = st.payloads ++ Δ
      ∧ (∀ p ∈ Δ, p.ptype = PATCH_PROP ∨ p.ptype = MOUNT)
      ∧ (reconcileToGenRenderPayload st c aux).trace = st.trace ++ tl := by
  cases hw : (st.chips c).wormhole with
  | some w =>
      have hfld := applyPropEvents_fields
        (reconcileProps ((st.chips c).props) ((st.chips w).props)).2 st
      refine ⟨[createRenderPayloadNode
        ((((applyPropEvents (reconcileProps ((st.chips c).props)
          ((st.chips w).props)).2 st).chips w)).elm) none none PATCH_PROP c none
        (some ((st.chips c).tag))
        (some (.delta (reconcileProps ((st.chips c).props) ((st.chips w).props)).1))
        (some .onPropPatched)],
        [REvent.cachedPayload (createRenderPayloadNode
          ((((applyPropEvents (reconcileProps ((st.chips c).props)
            ((st.chips w).props)).2 st).chips w)).elm) none none PATCH_PROP c none
          (some ((st.chips c).tag))
          (some (.delta (reconcileProps ((st.chips c).props) ((st.chips w).props)).1))
          (some .onPropPatched))], ?_, ?_, ?_⟩
      · simp only [reconcileToGenRenderPayload, hw]
        simp [cacheRenderPayload1, hfld.1]
      · intro p hp
        rcases List.mem_cons.mp hp with h | h
        · subst h; left; rfl
        · cases h
      · simp only [reconcileToGenRenderPayload, hw]
        simp [cacheRenderPayload1, hfld.2.1]
  | none =>
      refine ⟨[createRenderPayloadNode none none none PATCH_PROP c none
          (some ((st.chips c).tag)) (some (.raw ((st.chips c).props)))
          (some .onPropPatched),
        createRenderPayloadNode none none none MOUNT c aux none none none],
        [REvent.cachedPayload (createRenderPayloadNode none none none PATCH_PROP c none
          (some ((st.chips c).tag)) (some (.raw ((st.chips c).props)))
          (some .onPropPatched)),
        REvent.cachedPayload (createRenderPayloadNode none none none MOUNT c aux
          none none none)], ?_, ?_, ?_⟩
      · simp only [reconcileToGenRenderPayload, hw]
        simp [cacheRenderPayloadList, List.foldl, cacheRenderPayload1]
      · intro p hp
        rcases List.mem_cons.mp hp with h | h
        · subst h; left; rfl
        · rcases List.mem_cons.mp h with h' | h'
          · subst h'; right; rfl
          · cases h'
      · simp only [reconcileToGenRenderPayload, hw]
        simp [cacheRenderPayloadList, List.foldl, cacheRenderPayload1]

theorem nextChipAfterReconcile_fields (st : RSt) (c : Nat) :
    (nextChipAfterReconcile st c).1.payloads = st.payloads
    ∧ (nextChipAfterReconcile st c).1.trace = st.trace
    ∧ (nextChipAfterReconcile st c).1.hooks = st.hooks := by
  dsimp only [nextChipAfterReconcile]
  repeat' split
  all_goals exact ⟨rfl, rfl, rfl⟩

theorem completeReconcileHookCache_fields (stB : RSt) (c : Nat) :
    (completeReconcileHookCache stB c).payloads = stB.payloads
    ∧ (completeReconcileHookCache stB c).trace = stB.trace := by
  unfold completeReconcileHookCache
  by_cases hcomp : (stB.chips c).chipType = ChipTypes.CUSTOM_COMPONENT
  · cases hw : (stB.chips c).wormhole with
    | some w => simp [hcomp, hw, registerLifecycleHookEv]
    | none => simp [hcomp, hw, registerLifecycleHookEv]
  · simp [hcomp]

theorem completeReconcileDeletions_delta (env : Env) (st0 : RSt) (c : Nat) :
    ∃ Δ tl, (completeReconcileDeletions env st0 c).payloads = st0.payloads ++ Δ
      ∧ (∀ p ∈ Δ, p.ptype = UNMOUNT)
      ∧ (completeReconcileDeletions env st0 c).trace = st0.trace ++ tl := by
  unfold completeReconcileDeletions
  by_cases hd : hasDeletions (st0.chips c)
  · obtain ⟨Δ1, tl1, h1, h2, h3⟩ := genRenderPayloadsForDeletions_delta env
      ((st0.chips c).deletions.getD []) st0
    exact ⟨Δ1, tl1, by simp [hd, h1], h2, by simp [hd, h3]⟩
  · exact ⟨[], [], by simp [hd], by simp, by simp [hd]⟩

theorem completeReconcileWork_delta (env : Env) (st0 : RSt) (c : Nat)
    (aux : Option Nat) (skip : Bool) :
    ∃ Δ tl, (completeReconcileWork env st0 c aux skip).payloads = st0.payloads ++ Δ
      ∧ (∀ p ∈ Δ, p.ptype = PATCH_PROP ∨ p.ptype = MOUNT ∨ p.ptype = UNMOUNT)
      ∧ (completeReconcileWork env st0 c aux skip).trace = st0.trace ++ tl := by
  unfold completeReconcileWork
  cases skip with
  | true => exact ⟨[], [], by simp, by simp, by simp⟩
  | false =>
      obtain ⟨Δ1, tl1, h1, h2, h3⟩ := completeReconcileDeletions_delta env st0 c
      obtain ⟨Δ2, tl2, g1, g2, g3⟩ := reconcileToGenRenderPayload_delta
        (completeReconcileDeletions env st0 c) c aux
      have hhc := completeReconcileHookCache_fields
        (reconcileToGenRenderPayload (completeReconcileDeletions env st0 c) c aux) c
      refine ⟨Δ1 ++ Δ2, tl1 ++ tl2, ?_, ?_, ?_⟩
      · simp only [Bool.false_eq_true, if_false]
        rw [hhc.1, g1, h1, List.append_assoc]
      · intro p hp
        rcases List.mem_append.mp hp with h | h
        · right; right; exact h2 p h
        · rcases g2 p h with h' | h'
          · left; exact h'
          · right; left; exact h'
      · simp only [Bool.false_eq_true, if_false]
        rw [hhc.2, g3, h3, List.append_assoc]

/-- The state carried by an `initVirtualChip` outcome, thrown or not. -/
def vchipState (e : Except RSt RSt) : RSt :=
  match e with
  | .ok s => s
  | .error s => s

theorem except_eq_ok_of_isOk (e : Except RSt RSt) (h : e.isOk = true) :
    e = .ok (vchipState e) := by
  cases e with
  | ok s => rfl
  | error s => simp [Except.isOk, Except.toBool] at h

theorem initVirtualChip_state_fields (env : Env) (st : RSt) (c : Nat) :
    (vchipState (initVirtualChip env st c)).payloads = st.payloads
    ∧ (vchipState (initVirtualChip env st c)).trace = st.trace
    ∧ ((vchipState (initVirtualChip env st c)).chips c).wormhole = (st.chips c).wormhole
    ∧ ((vchipState (initVirtualChip env st c)).chips c).chipType = (st.chips c).chipType
    ∧ ((vchipState (initVirtualChip env st c)).chips c).tag = (st.chips c).tag := by
  dsimp only [initVirtualChip]
  repeat' split
  all_goals simp [vchipState, cacheAbandonedEffectTok, updChip]

theorem initVirtualChip_isOk_no_wormhole (env : Env) (st : RSt) (c : Nat)
    (hw : (st.chips c).wormhole = none) :
    (initVirtualChip env st c).isOk = true := by
  dsimp only [initVirtualChip]
  repeat' split
  all_goals simp_all [Except.isOk, Except.toBool]

theorem initVirtualChip_isOk_wormhole (env : Env) (st : RSt) (c w : Nat)
    (hw : (st.chips c).wormhole = some w) (heff : (st.chips w).effects = true) :
    (initVirtualChip env st c).isOk = true := by
  have heffAny : ∀ v : RChip, v.effects = (st.chips c).effects →
      ((updChip st.chips c v) w).effects = true := by
    intro v hv
    by_cases hwc : w = c
    · subst hwc
      rw [updChip_same, hv]
      exact heff
    · rw [updChip_other _ _ _ hwc]
      exact heff
  dsimp only [initVirtualChip]
  repeat' split
  all_goals simp_all [Except.isOk, Except.toBool,
    heffAny { st.chips c with children := env.vrender c } rfl,
    heffAny { st.chips c with inst := some c, children := env.vrender c } rfl]

theorem completeReconcile_delta (env : Env) (st : RSt) (c : Nat) (aux : Option Nat)
    (skip : Bool) :
    ∃ Δ tl, (completeReconcile env st c aux skip).1.payloads = st.payloads ++ Δ
      ∧ Δ.countP (fun p => p.ptype == CREATE_ELEMENT) = 0
      ∧ (completeReconcile env st c aux skip).1.trace = st.trace ++ tl := by
  unfold completeReconcile
  set completed : RChip := { st.chips c with phase := .COMPLETE } with hcompleted
  set st0 : RSt := { st with chips := updChip st.chips c completed } with hst0
  obtain ⟨Δ, tl, h1, h2, h3⟩ := completeReconcileWork_delta env st0 c aux skip
  have hn := nextChipAfterReconcile_fields (completeReconcileWork env st0 c aux skip) c
  refine ⟨Δ, tl, ?_, ?_, ?_⟩
  · rw [hn.1, h1]
  · rw [List.countP_eq_zero]
    intro p hp
    rcases h2 p hp with h | h | h <;>
      simp [h, PATCH_PROP, MOUNT, UNMOUNT, CREATE_ELEMENT]
  · rw [hn.2.1, h3]

/-- The payload `initReconcileLifecyclePayload` caches in the mount branch. -/
def mountPayloadOf (st1 : RSt) (c : Nat) : Payload :=
  createRenderPayloadNode none none none CREATE_ELEMENT c none
    (some ((st1.chips c).tag)) none (some .assignElmToContext)

theorem initReconcileLifecyclePayload_mount (ci : Option Nat) (st1 : RSt) (c : Nat)
    (hw : (st1.chips c).wormhole = none) :
    (initReconcileLifecyclePayload ci st1 c).payloads =
      st1.payloads ++ [mountPayloadOf st1 c]
    ∧ (initReconcileLifecyclePayload ci st1 c).trace = st1.trace ++
        (if ci.isSome then
          [REvent.lifecycle .INIT c, REvent.cachedPayload (mountPayloadOf st1 c),
            REvent.lifecycle .WILL_MOUNT c]
        else [REvent.cachedPayload (mountPayloadOf st1 c)])
    ∧ (initReconcileLifecyclePayload ci st1 c).chips = st1.chips := by
  by_cases hci : ci.isSome = true <;>
    simp [initReconcileLifecyclePayload, mountPayloadOf, hw, hci,
      invokeLifecycleEv, cacheRenderPayload1]

theorem initReconcileLifecyclePayload_update (ci : Option Nat) (st1 : RSt) (c w : Nat)
    (hw : (st1.chips c).wormhole = some w) :
    (initReconcileLifecyclePayload ci st1 c).payloads = st1.payloads
    ∧ (initReconcileLifecyclePayload ci st1 c).trace = st1.trace ++
        (if ci.isSome then [REvent.lifecycle .WILL_UPDATE c] else [])
    ∧ (initReconcileLifecyclePayload ci st1 c).chips = st1.chips := by
  by_cases hci : ci.isSome = true <;>
    simp [initReconcileLifecyclePayload, hw, hci, invokeLifecycleEv]

theorem initReconcileNext_delta (env : Env) (st2 : RSt) (c : Nat)
    (lastChip : Option Nat) (children : Kids) (wormhole : Option Nat) :
    ∃ Δ tl, (initReconcileNext env st2 c lastChip children wormhole).state.payloads =
        st2.payloads ++ Δ
      ∧ Δ.countP (fun p => p.ptype == CREATE_ELEMENT) = 0
      ∧ (initReconcileNext env st2 c lastChip children wormhole).state.trace =
          st2.trace ++ tl := by
  unfold initReconcileNext
  cases hlc : Render.getLastChipChild children with
  | some lc =>
      cases wormhole with
      | some w => exact ⟨[], [], by simp [RStep.state], by simp, by simp [RStep.state]⟩
      | none => exact ⟨[], [], by simp [RStep.state], by simp, by simp [RStep.state]⟩
  | none =>
      obtain ⟨Δ, tl, h1, h2, h3⟩ := completeReconcile_delta env st2 c lastChip false
      exact ⟨Δ, tl, by simp [RStep.state, h1], h2, by simp [RStep.state, h3]⟩

theorem trace_countLC_cachePayload (p : Payload) (st : RSt) :
    ((cacheRenderPayload1 p st).trace.countP isLifecycleEv) =
      st.trace.countP isLifecycleEv := by
  simp [cacheRenderPayload1, List.countP_append, isLifecycleEv]

theorem trace_countLC_gen (env : Env) : ∀ (dels : List Nat) (st : RSt),
    ((genRenderPayloadsForDeletions env dels st).trace.countP isLifecycleEv) =
      st.trace.countP isLifecycleEv := by
  intro dels
  unfold genRenderPayloadsForDeletions
  induction dels with
  | nil => intro st; rfl
  | cons d rest ih =>
      intro st
      rw [List.foldl_cons, ih]
      simp [cacheAbandonedEffectTok, cacheRenderPayload1, List.countP_append,
        isLifecycleEv]

theorem trace_countLC_reconcileToGen (st : RSt) (c : Nat) (aux : Option Nat) :
    ((reconcileToGenRenderPayload st c aux).trace.countP isLifecycleEv) =
      st.trace.countP isLifecycleEv := by
  unfold reconcileToGenRenderPayload
  cases hw : (st.chips c).wormhole with
  | some w =>
      simp only [hw]
      rw [trace_countLC_cachePayload,
        (applyPropEvents_fields (reconcileProps ((st.chips c).props)
          ((st.chips w).props)).2 st).2.1]
  | none =>
      simp only [hw, cacheRenderPayloadList, List.foldl]
      rw [trace_countLC_cachePayload, trace_countLC_cachePayload]

theorem trace_countLC_deletions (env : Env) (st0 : RSt) (c : Nat) :
    ((completeReconcileDeletions env st0 c).trace.countP isLifecycleEv) =
      st0.trace.countP isLifecycleEv := by
  unfold completeReconcileDeletions
  by_cases h : hasDeletions (st0.chips c)
  · simp [h, trace_countLC_gen]
  · simp [h]

theorem trace_countLC_work (env : Env) (st0 : RSt) (c : Nat) (aux : Option Nat)
    (skip : Bool) :
    ((completeReconcileWork env st0 c aux skip).trace.countP isLifecycleEv) =
      st0.trace.countP isLifecycleEv := by
  unfold completeReconcileWork
  cases skip with
  | true => simp
  | false =>
      simp only [Bool.false_eq_true, if_false]
      rw [(completeReconcileHookCache_fields _ c).2, trace_countLC_reconcileToGen,
        trace_countLC_deletions]

theorem trace_countLC_completeReconcile (env : Env) (st : RSt) (c : Nat)
    (aux : Option Nat) (skip : Bool) :
    ((completeReconcile env st c aux skip).1.trace.countP isLifecycleEv) =
      st.trace.countP isLifecycleEv := by
  simp only [completeReconcile]
  rw [(nextChipAfterReconcile_fields _ c).2.1, trace_countLC_work]

theorem trace_countLC_next (env : Env) (st2 : RSt) (c : Nat) (lastChip : Option Nat)
    (children : Kids) (wormhole : Option Nat) :
    ((initReconcileNext env st2 c lastChip children wormhole).state.trace.countP
      isLifecycleEv) = st2.trace.countP isLifecycleEv := by
  unfold initReconcileNext
  cases hlc : Render.getLastChipChild children with
  | some lc =>
      cases wormhole with
      | some w => simp [RStep.state]
      | none => simp [RStep.state]
  | none =>
      simp only [RStep.state]
      rw [trace_countLC_completeReconcile]

theorem trace_countLC_lifecyclePayload_none (st1 : RSt) (c : Nat) :
    ((initReconcileLifecyclePayload none st1 c).trace.countP isLifecycleEv) =
      st1.trace.countP isLifecycleEv := by
  unfold initReconcileLifecyclePayload
  cases hw : (st1.chips c).wormhole with
  | none =>
      simp only [hw, Option.isSome_none, Bool.false_eq_true, if_false]
      rw [trace_countLC_cachePayload]
  | some w =>
      simp [hw]

theorem initReconcileBody_mount (env : Env) (s : RSt) (c : Nat)
    (lastChip : Option Nat)
    (hskip : isSkipReconcile (s.chips c) env.criFlags = false)
    (hw : (s.chips c).wormhole = none)
    (hinst : (s.chips c).inst = none) :
    ∃ Δ, (initReconcileBody env s c lastChip).state.payloads = s.payloads ++ Δ
      ∧ Δ.countP (fun p => p.ptype == CREATE_ELEMENT) = 1
      ∧ (∀ p ∈ Δ, p.ptype = CREATE_ELEMENT →
          p.callback = some CallbackKind.assignElmToContext ∧ p.context = c) := by
  have hskipP : ¬ (isSkipReconcile (s.chips c) env.criFlags = true) := by
    intro hh
    rw [hskip] at hh
    exact Bool.false_ne_true hh
  have hci : (if (s.chips c).chipType = ChipTypes.CUSTOM_COMPONENT then
      (s.chips c).inst else none) = none := by
    by_cases h : (s.chips c).chipType = ChipTypes.CUSTOM_COMPONENT <;>
      simp [h, hinst]
  have hok := except_eq_ok_of_isOk (initVirtualChip env s c)
    (initVirtualChip_isOk_no_wormhole env s c hw)
  have hfields := initVirtualChip_state_fields env s c
  have hstep : initReconcileBody env s c lastChip =
      initReconcileNext env
        (initReconcileLifecyclePayload none (vchipState (initVirtualChip env s c)) c)
        c lastChip (((vchipState (initVirtualChip env s c)).chips c).children)
        (((vchipState (initVirtualChip env s c)).chips c).wormhole) := by
    simp only [initReconcileBody]
    rw [hci, if_neg hskipP, hok]
    rfl
  have hw1 : ((vchipState (initVirtualChip env s c)).chips c).wormhole = none := by
    rw [hfields.2.2.1, hw]
  have hlp := initReconcileLifecyclePayload_mount none
    (vchipState (initVirtualChip env s c)) c hw1
  obtain ⟨Δ2, tl2, hn1, hn2, hn3⟩ := initReconcileNext_delta env
    (initReconcileLifecyclePayload none (vchipState (initVirtualChip env s c)) c) c
    lastChip (((vchipState (initVirtualChip env s c)).chips c).children)
    (((vchipState (initVirtualChip env s c)).chips c).wormhole)
  have hpay : (initReconcileBody env s c lastChip).state.payloads =
      s.payloads ++ ((mountPayloadOf (vchipState (initVirtualChip env s c)) c :: Δ2)) := by
    rw [hstep, hn1, hlp.1, hfields.1]
    simp
  refine ⟨mountPayloadOf (vchipState (initVirtualChip env s c)) c :: Δ2, hpay, ?_, ?_⟩
  · rw [List.countP_cons]
    rw [hn2]
    simp [mountPayloadOf, createRenderPayloadNode]
  · intro p hp hpt
    rcases List.mem_cons.mp hp with h | h
    · subst h
      exact ⟨rfl, rfl⟩
    · exfalso
      have := (List.countP_eq_zero.mp hn2) p h
      simp [hpt] at this

theorem initReconcileBody_update (env : Env) (s : RSt) (c w : Nat)
    (lastChip : Option Nat)
    (hskip : isSkipReconcile (s.chips c) env.criFlags = false)
    (hw : (s.chips c).wormhole = some w) (heff : (s.chips w).effects = true)
    (hinst : (s.chips c).inst = none) :
    ∃ Δ, (initReconcileBody env s c lastChip).state.payloads = s.payloads ++ Δ
      ∧ Δ.countP (fun p => p.ptype == CREATE_ELEMENT) = 0 := by
  have hskipP : ¬ (isSkipReconcile (s.chips c) env.criFlags = true) := by
    intro hh
    rw [hskip] at hh
    exact Bool.false_ne_true hh
  have hci : (if (s.chips c).chipType = ChipTypes.CUSTOM_COMPONENT then
      (s.chips c).inst else none) = none := by
    by_cases h : (s.chips c).chipType = ChipTypes.CUSTOM_COMPONENT <;>
      simp [h, hinst]
  have hok := except_eq_ok_of_isOk (initVirtualChip env s c)
    (initVirtualChip_isOk_wormhole env s c w hw heff)
  have hfields := initVirtualChip_state_fields env s c
  have hstep : initReconcileBody env s c lastChip =
      initReconcileNext env
        (initReconcileLifecyclePayload none (vchipState (initVirtualChip env s c)) c)
        c lastChip (((vchipState (initVirtualChip env s c)).chips c).children)
        (((vchipState (initVirtualChip env s c)).chips c).wormhole) := by
    simp only [initReconcileBody]
    rw [hci, if_neg hskipP, hok]
    rfl
  have hw1 : ((vchipState (initVirtualChip env s c)).chips c).wormhole = some w := by
    rw [hfields.2.2.1, hw]
  have hlp := initReconcileLifecyclePayload_update none
    (vchipState (initVirtualChip env s c)) c w hw1
  obtain ⟨Δ2, tl2, hn1, hn2, hn3⟩ := initReconcileNext_delta env
    (initReconcileLifecyclePayload none (vchipState (initVirtualChip env s c)) c) c
    lastChip (((vchipState (initVirtualChip env s c)).chips c).children)
    (((vchipState (initVirtualChip env s c)).chips c).wormhole)
  refine ⟨Δ2, ?_, hn2⟩
  rw [hstep, hn1, hlp.1, hfields.1]

theorem initReconcileBody_lifecycleCount (env : Env) (s : RSt) (c : Nat)
    (lastChip : Option Nat) (hinst : (s.chips c).inst = none) :
    ((initReconcileBody env s c lastChip).state.trace.countP isLifecycleEv) =
      s.trace.countP isLifecycleEv := by
  have hci : (if (s.chips c).chipType = ChipTypes.CUSTOM_COMPONENT then
      (s.chips c).inst else none) = none := by
    by_cases h : (s.chips c).chipType = ChipTypes.CUSTOM_COMPONENT <;>
      simp [h, hinst]
  simp only [initReconcileBody]
  rw [hci]
  by_cases hskip : isSkipReconcile (s.chips c) env.criFlags = true
  · rw [if_pos hskip]
    simp only [RStep.state]
    rw [trace_countLC_completeReconcile]
  · rw [if_neg hskip]
    cases he : initVirtualChip env s c with
    | error stX =>
        dsimp only []
        simp only [RStep.state]
        have hf := (initVirtualChip_state_fields env s c).2.1
        rw [he] at hf
        simp only [vchipState] at hf
        rw [hf]
    | ok st1 =>
        dsimp only []
        rw [trace_countLC_next, trace_countLC_lifecyclePayload_none]
        have hf := (initVirtualChip_state_fields env s c).2.1
        rw [he] at hf
        simp only [vchipState] at hf
        rw [hf]


end Reconcile

namespace EffCache

/-- A chip's effect-list cell arena: `ChipEffectUnit` records `{ effect, next }`,
addressed by allocation index; `next` is a reference to another unit or null.
Aliasing matters here (the source mutates a unit reachable both from `first` and
from `last`), hence the explicit arena. -/
structure EffSt where
  nodes : List (Nat × Option Nat)
  chipEffectsFirst : Option Nat
  chipEffectsLast : Option Nat
  effectLastField : List (Nat × Nat)
deriving DecidableEq, Repr

/-- The chip before any effect is cached: `chip.effects` is unset. -/
def emptyEffSt : EffSt :=
  { nodes := [], chipEffectsFirst := none, chipEffectsLast := none, effectLastField := [] }

/-- `cacheEffectToChip` (workRender.ts 563-579), faithful to the letter of the
source: allocate `effectNode = { effect, next: null }`; when `chip.effects` exists,
run `effect.last = effects.last.next = effectNode` — i.e. store the new node into the
`next` slot of the node `effects.last` points at and into the `last` field of the
Effect object itself, leaving `chip.effects.last` untouched; otherwise set
`chip.effects = { first: effectNode, last: effectNode }`. -/
def cacheEffectToChip (e : Nat) (st : EffSt) : EffSt :=
  let nodeId := st.nodes.length
  let nodes1 := st.nodes ++ [(e, none)]
  match st.chipEffectsFirst, st.chipEffectsLast with
  | some f, some l =>
      let nodes2 :=
        match nodes1[l]? with
        | some cell => nodes1.set l (cell.1, some nodeId)
        | none => nodes1
      { nodes := nodes2
        chipEffectsFirst := some f
        chipEffectsLast := some l
        effectLastField := st.effectLastField ++ [(e, nodeId)] }
  | _, _ =>
      { nodes := nodes1
        chipEffectsFirst := some nodeId
        chipEffectsLast := some nodeId
        effectLastField := st.effectLastField }

/-- The effects reachable from a unit reference by following `next`, fuel-bounded by
the arena size. -/
def chainFrom (nodes : List (Nat × Option Nat)) : Nat → Option Nat → List Nat
  | 0, _ => []
  | _, none => []
  | fuel + 1, some i =>
      match nodes[i]? with
      | some cell => cell.1 :: chainFrom nodes fuel cell.2
      | none => []

/-- The chip's effect list as observed from `chip.effects.first`. -/
def effectList (st : EffSt) : List Nat :=
  match st.chipEffectsFirst with
  | some f => chainFrom st.nodes st.nodes.length (some f)
  | none => []

/-- The effect held by the unit `chip.effects.last` points at. -/
def lastPointedEffect (st : EffSt) : Option Nat :=
  match st.chipEffectsLast with
  | some l => (st.nodes[l]?).map Prod.fst
  | none => none

/-- Three effects cached on one chip in order, as `createRenderEffectForProp`,
`createRenderEffectForConditionChip` and `createRenderEffectForIterableChip` would
each do via `cacheEffectToChip`. -/
def threeCached : EffSt :=
  cacheEffectToChip 3 (cacheEffectToChip 2 (cacheEffectToChip 1 emptyEffSt))

end EffCache

namespace SwitchModel

/-- One `case` of a JS `switch`: the matched value, the statements of the case body
(as abstract actions), and whether the body ends in `break`. -/
structure SwitchCase (α β : Type) where
  val : α
  actions : List β
  hasBreak : Bool

/-- Execution from a given case onward: run each consecutive case body until one
ends in `break`. -/
def runFrom {α β : Type} : List (SwitchCase α β) → List β
  | [] => []
  | c :: rest => c.actions ++ (if c.hasBreak then [] else runFrom rest)

/-- JS `switch` semantics: skip to the first case matching the scrutinee, then fall
through consecutive bodies until a `break`; when no case matches, run the default
body. -/
def runSwitch {α β : Type} [DecidableEq α] (cases : List (SwitchCase α β))
    (dflt : List β) (v : α) : List β :=
  let rest := cases.dropWhile (fun c => decide (c.val ≠ v))
  match rest with
  | [] => dflt
  | _ => runFrom rest

/-- The branch bodies of `initRenderWorkForChip` (workRender.ts 197-214). -/
inductive InitAction where
  | initComponent
  | initReservedComponent
  | initElement
  | initConditionWork
  | initIterableWork
deriving DecidableEq, Repr

/-- `initRenderWorkForChip` (workRender.ts 197-214) as its executed branch bodies:
the CONDITION case calls `initRenderWorkForConditionChip` and has no `break` before
the FRAGMENT case. -/
def initRenderWorkForChip (t : Reconcile.ChipTypes) : List InitAction :=
  runSwitch
    [ ⟨.CUSTOM_COMPONENT, [.initComponent], true⟩
    , ⟨.RESERVED_COMPONENT, [.initReservedComponent], true⟩
    , ⟨.NATIVE_DOM, [.initElement], true⟩
    , ⟨.CONDITION, [.initConditionWork], false⟩
    , ⟨.FRAGMENT, [.initIterableWork], true⟩ ]
    [] t

/-- The branch bodies of `completeRenderWorkForChipSync` (workRender.ts 367-384). -/
inductive CompleteAction where
  | completeElement
  | completeComponent
  | completeConditionWork
  | completeIterableWork
deriving DecidableEq, Repr

/-- `completeRenderWorkForChipSync` (workRender.ts 367-384) as its executed branch
bodies: the CONDITION case calls `completeRenderWorkForConditionChip` and has no
`break` before the FRAGMENT case; the default case only carries a comment. -/
def completeRenderWorkForChipSync (t : Reconcile.ChipTypes) : List CompleteAction :=
  runSwitch
    [ ⟨.NATIVE_DOM, [.completeElement], true⟩
    , ⟨.CUSTOM_COMPONENT, [.completeComponent], true⟩
    , ⟨.CONDITION, [.completeConditionWork], false⟩
    , ⟨.FRAGMENT, [.completeIterableWork], true⟩ ]
    [] t

end SwitchModel

namespace CloneModel

/-- The `children` value held by a chip (`ChipChildren = Chip | Chip[]`, possibly
absent), chips as ids. -/
inductive JChildren where
  | undef
  | chipRef (c : Nat)
  | arr (cs : List Nat)
deriving DecidableEq, Repr

/-- The result of `Object.assign(..., x)` on a children value: a plain object copy —
the enumerable properties of a single chip, the index-keyed entries of an array, or
an empty object for `undefined`.  The result type has no array constructor: the copy
of an array children list is a plain object, not an array. -/
inductive JObjCopy where
  | ofUndef
  | ofChip (c : Nat)
  | ofArrIndexed (cs : List Nat)
deriving DecidableEq, Repr

/-- `Object.assign` of an empty object literal with a children value. -/
def objAssignCopy : JChildren → JObjCopy
  | .undef => .ofUndef
  | .chipRef c => .ofChip c
  | .arr cs => .ofArrIndexed cs

/-- The fields of a source chip that `cloneChip` (component.ts 214-224) reads,
plus the `props` field `genReconcileEffects` passes along. -/
structure SrcChip where
  tag : String
  data : Nat
  key : Nat
  children : JChildren
  parent : Option Nat
  elm : Option Nat
  isComponent : Option Bool
  props : Reconcile.Props
deriving DecidableEq, Repr

/-- The record `cloneChip` returns: `{ tag, data: copy, key, children: copy, parent,
elm, isComponent }` — no `props`, no `wormhole`, no phase or traversal pointers. -/
structure ClonedChip where
  tag : String
  data : Nat
  key : Nat
  children : JObjCopy
  parent : Option Nat
  elm : Option Nat
  isComponent : Option Bool
deriving DecidableEq, Repr

/-- `cloneChip(chip, props, children)` (component.ts 214-224): the returned object is
built from the original chip's fields only; `data` and `children` are shallow
`Object.assign` copies; the `props` and `children` parameters do not occur in the
body. -/
def cloneChip (chip : SrcChip) (props : Reconcile.Props) (children : JChildren) :
    ClonedChip :=
  { tag := chip.tag
    data := chip.data
    key := chip.key
    children := objAssignCopy chip.children
    parent := chip.parent
    elm := chip.elm
    isComponent := chip.isComponent }

/-- The new chip `genReconcileEffects` (workRender.ts 647-652) hands to
`performReconcileWork` when the render data carries children:
`cloneChip(chip, chip.props, children)`. -/
def genReconcileEffectsNewChip (chip : SrcChip) (renderedChildren : JChildren) :
    ClonedChip :=
  cloneChip chip chip.props renderedChildren

end CloneModel

namespace Ancestor

/-- `getAncestorContainer` (workRender.ts 551-556) over the chip's ancestor chain
(the `elm` fields of `chip.parent`, `chip.parent.parent`, ...):
`let current = chip.parent; while (current.elm === null) current = current.parent;
return current.elm`.  The walk stops at the first ancestor with a non-null `elm`;
when the (finite, tree-shaped) chain is exhausted, `current` is null and the JS loop
condition dereferences `null.elm`, throwing — embedded as `none`. -/
def getAncestorContainer : List (Option Nat) → Option Nat
  | [] => none
  | some e :: _ => some e
  | none :: rest => getAncestorContainer rest

end Ancestor

/-- Spec-side next-chip rule, written from the claim's words (§4.1 tail-to-head
sibling rule): the next chip after completing `c` is `c`'s previous sibling when one
exists — taken from the cached `prevSibling` link or, when that is null and the
parent's children container is an array, from the parent's children at the
decremented `currentChildIndex` — and otherwise `c`'s parent.  It is parametrised by
the four field readers so that it applies verbatim to both the render heap (`St`
with the separate `kids` map) and the reconcile heap (`RSt`). -/
def specNextChip (prevSib par : Nat → Option Nat) (childrenOf : Nat → Kids)
    (cci : Nat → Int) (c : Nat) : Option Nat :=
  match prevSib c with
  | some b => some b
  | none =>
      match par c with
      | some p =>
          match childrenOf p with
          | Kids.karr cs =>
              match Render.jsIndex cs (cci p - 1) with
              | some b => some b
              | none => par c
          | _ => par c
      | none => none

namespace Render

theorem nextChipAfter_snd_spec (kids : Nat → Kids) (s : St) (c : Nat) :
    (nextChipAfter kids s c).2 =
      specNextChip (fun x => (s x).prevSibling) (fun x => (s x).parent) kids
        (fun x => (s x).currentChildIndex) c := by
  cases hprev : (s c).prevSibling with
  | some b => simp [nextChipAfter, specNextChip, hprev]
  | none =>
      cases hpar : (s c).parent with
      | none => simp [nextChipAfter, specNextChip, hprev, hpar]
      | some p =>
          cases hkp : kids p with
          | knone => simp [nextChipAfter, specNextChip, hprev, hpar, hkp]
          | ksingle y => simp [nextChipAfter, specNextChip, hprev, hpar, hkp]
          | karr cs =>
              cases hj : jsIndex cs ((s p).currentChildIndex - 1) with
              | some b => simp [nextChipAfter, specNextChip, hprev, hpar, hkp, hj]
              | none =>
                  simp only [nextChipAfter, specNextChip, hprev, hpar, hkp, hj]
                  simp only [upd]
                  split_ifs with h
                  · subst h
                    simp [hpar]
                  · simp [hpar]

theorem completeChip_snd_spec (kids : Nat → Kids) (s : St) (c : Nat) :
    (completeChip kids s c).2 =
      specNextChip (fun x => (s x).prevSibling) (fun x => (s x).parent) kids
        (fun x => (s x).currentChildIndex) c := by
  unfold completeChip
  rw [nextChipAfter_snd_spec]
  have h1 : (fun x => ((upd s c { s c with phase := ChipPhases.COMPLETE }) x).prevSibling) = (fun x => (s x).prevSibling) := by
    funext x
    by_cases h : x = c
    · subst h
      simp
    · simp [upd, h]
  have h2 : (fun x => ((upd s c { s c with phase := ChipPhases.COMPLETE }) x).parent) = (fun x => (s x).parent) := by
    funext x
    by_cases h : x = c
    · subst h
      simp
    · simp [upd, h]
  have h3 : (fun x => ((upd s c { s c with phase := ChipPhases.COMPLETE }) x).currentChildIndex) = (fun x => (s x).currentChildIndex) := by
    funext x
    by_cases h : x = c
    · subst h
      simp
    · simp [upd, h]
  rw [h1, h2, h3]

end Render

namespace Reconcile

theorem genRenderPayloadsForDeletions_chips (env : Env) : ∀ (dels : List Nat)
    (st : RSt), (genRenderPayloadsForDeletions env dels st).chips = st.chips := by
  intro dels
  unfold genRenderPayloadsForDeletions
  induction dels with
  | nil => intro st; rfl
  | cons d rest ih =>
      intro st
      rw [List.foldl_cons, ih]
      rfl

theorem reconcileToGenRenderPayload_chips (st : RSt) (c : Nat) (aux : Option Nat) :
    (reconcileToGenRenderPayload st c aux).chips = st.chips := by
  unfold reconcileToGenRenderPayload
  cases hw : (st.chips c).wormhole with
  | some w =>
      simp only [hw]
      have h := (applyPropEvents_fields
        (reconcileProps ((st.chips c).props) ((st.chips w).props)).2 st).2.2
      simpa [cacheRenderPayload1] using h
  | none =>
      simp only [hw]
      rfl

theorem completeReconcileHookCache_chips (stB : RSt) (c : Nat) :
    (completeReconcileHookCache stB c).chips = stB.chips := by
  unfold completeReconcileHookCache
  by_cases h : (stB.chips c).chipType = ChipTypes.CUSTOM_COMPONENT
  · cases hw : (stB.chips c).wormhole <;> simp [h, hw, registerLifecycleHookEv]
  · simp [h]

theorem completeReconcileDeletions_chips (env : Env) (st0 : RSt) (c : Nat) :
    (completeReconcileDeletions env st0 c).chips = st0.chips := by
  unfold completeReconcileDeletions
  by_cases h : hasDeletions (st0.chips c)
  · simp [h, genRenderPayloadsForDeletions_chips]
  · simp [h]

theorem completeReconcileWork_chips (env : Env) (st0 : RSt) (c : Nat)
    (aux : Option Nat) (skip : Bool) :
    (completeReconcileWork env st0 c aux skip).chips = st0.chips := by
  unfold completeReconcileWork
  cases skip with
  | true => simp
  | false =>
      simp only [Bool.false_eq_true, if_false]
      rw [completeReconcileHookCache_chips, reconcileToGenRenderPayload_chips,
        completeReconcileDeletions_chips]

theorem nextChipAfterReconcile_snd_spec (st : RSt) (c : Nat) :
    (nextChipAfterReconcile st c).2 =
      specNextChip (fun x => (st.chips x).prevSibling) (fun x => (st.chips x).parent)
        (fun x => (st.chips x).children) (fun x => (st.chips x).currentChildIndex)
        c := by
  cases hprev : (st.chips c).prevSibling with
  | some b => simp [nextChipAfterReconcile, specNextChip, hprev]
  | none =>
      cases hpar : (st.chips c).parent with
      | none => simp [nextChipAfterReconcile, specNextChip, hprev, hpar]
      | some p =>
          cases hkp : (st.chips p).children with
          | knone => simp [nextChipAfterReconcile, specNextChip, hprev, hpar, hkp]
          | ksingle y => simp [nextChipAfterReconcile, specNextChip, hprev, hpar, hkp]
          | karr cs =>
              cases hj : Render.jsIndex cs ((st.chips p).currentChildIndex - 1) with
              | some b =>
                  simp [nextChipAfterReconcile, specNextChip, hprev, hpar, hkp, hj]
              | none =>
                  simp only [nextChipAfterReconcile, specNextChip, hprev, hpar, hkp, hj]
                  simp only [updChip]
                  split_ifs with h
                  · subst h
                    simp [hpar]
                  · simp [hpar]

theorem completeReconcile_snd_spec (env : Env) (st : RSt) (c : Nat)
    (aux : Option Nat) (sk : Bool) :
    (completeReconcile env st c aux sk).2 =
      specNextChip (fun x => (st.chips x).prevSibling) (fun x => (st.chips x).parent)
        (fun x => (st.chips x).children) (fun x => (st.chips x).currentChildIndex)
        c := by
  simp only [completeReconcile]
  rw [nextChipAfterReconcile_snd_spec, completeReconcileWork_chips]
  dsimp only []
  have h1 : (fun x => ((updChip st.chips c { st.chips c with phase := ChipPhases.COMPLETE }) x).prevSibling) = (fun x => (st.chips x).prevSibling) := by
    funext x
    by_cases h : x = c
    · subst h
      simp [updChip]
    · simp [updChip, h]
  have h2 : (fun x => ((updChip st.chips c { st.chips c with phase := ChipPhases.COMPLETE }) x).parent) = (fun x => (st.chips x).parent) := by
    funext x
    by_cases h : x = c
    · subst h
      simp [updChip]
    · simp [updChip, h]
  have h3 : (fun x => ((updChip st.chips c { st.chips c with phase := ChipPhases.COMPLETE }) x).children) = (fun x => (st.chips x).children) := by
    funext x
    by_cases h : x = c
    · subst h
      simp [updChip]
    · simp [updChip, h]
  have h4 : (fun x => ((updChip st.chips c { st.chips c with phase := ChipPhases.COMPLETE }) x).currentChildIndex) = (fun x => (st.chips x).currentChildIndex) := by
    funext x
    by_cases h : x = c
    · subst h
      simp [updChip]
    · simp [updChip, h]
  rw [h1, h2, h3, h4]

end Reconcile

/-- A concrete chip tree used to instantiate the run-level theorems: a root with an
array of three children, the middle one a single-child component and the last one a
nested array parent. -/
def demoT : Render.CTree :=
  .many 0 [.leaf 1, .one 2 (.leaf 3), .many 4 [.leaf 5, .leaf 6]]

/-- The children containers realising `demoT` in the heap. -/
def demoKids : Nat → Kids := fun n =>
  if n = 0 then .karr [1, 2, 4]
  else if n = 2 then .ksingle 3
  else if n = 4 then .karr [5, 6]
  else .knone

/-- A fresh heap: every chip PENDING with no traversal links. -/
def demoS : Render.St := fun _ =>
  { phase := ChipPhases.PENDING, parent := none, prevSibling := none, lastChild := none, currentChildIndex := 0 }

/-- C1: for every chip tree realised in the heap (`agreesT`), running
`performRenderSync`'s work loop from the fresh root terminates with completion trace
exactly the tree's reverse post-order; every chip of the tree ends COMPLETE, and in
the trace every child's COMPLETE transition strictly precedes its parent's
(post-order), so `performChipWork` never completes a parent while a child is still
PENDING or INITIALIZE. -/
theorem claim_C1_postorder (kids : Nat → Kids) (T : Render.CTree) (s : Render.St)
    (hagree : Render.agreesT kids T = true)
    (hnd : (Render.idsT T).Nodup)
    (hfresh : ∀ x ∈ Render.idsT T, Render.freshAt s x)
    (hroot : (s T.id).parent = none) :
    ∃ f sFin,
      Render.runRender kids f s (some T.id) = (sFin, none, Render.rpostT T) ∧
      (∀ x ∈ Render.idsT T, (sFin x).phase = ChipPhases.COMPLETE) ∧
      ∀ pr ∈ Render.pairsT T,
        (Render.rpostT T).indexOf pr.2 < (Render.rpostT T).indexOf pr.1 := by
  obtain ⟨f, sMid, hfr, hph, hprev, hpar, hrun⟩ :=
    (Render.runMaster (Render.szT T)).1 kids T s (le_refl _) hagree hnd hfresh
  have hroot' : (sMid T.id).parent = none := by
    rw [hpar]
    exact hroot
  rw [Render.nextChipAfter_root kids sMid T.id hprev hroot'] at hrun
  dsimp only [] at hrun
  exact ⟨f, sMid, hrun, hph, Render.pairsT_order T hnd⟩

theorem claim_C1_witness :
    Render.agreesT demoKids demoT = true ∧
    (Render.idsT demoT).Nodup ∧
    (∀ x ∈ Render.idsT demoT, Render.freshAt demoS x) ∧
    (∃ f sFin,
      Render.runRender demoKids f demoS (some demoT.id) =
        (sFin, none, Render.rpostT demoT) ∧
      (∀ x ∈ Render.idsT demoT, (sFin x).phase = ChipPhases.COMPLETE) ∧
      ∀ pr ∈ Render.pairsT demoT,
        (Render.rpostT demoT).indexOf pr.2 < (Render.rpostT demoT).indexOf pr.1) :=
  ⟨by decide, by decide, by decide,
    claim_C1_postorder demoKids demoT demoS (by decide) (by decide) (by decide) rfl⟩

/-- C2: the next chip returned by `completeChip` and by `completeReconcile` is the
spec's tail-to-head rule `specNextChip` (the cached previous sibling if present,
else the parent's array children at the decremented `currentChildIndex`, else the
parent); consequently, at run level, the chips of every children array are completed
strictly back-to-front: a higher-index sibling always completes before a lower-index
one. -/
theorem claim_C2_next_chip :
    (∀ (kids : Nat → Kids) (s : Render.St) (c : Nat),
      (Render.completeChip kids s c).2 =
        specNextChip (fun x => (s x).prevSibling) (fun x => (s x).parent) kids
          (fun x => (s x).currentChildIndex) c) ∧
    (∀ (env : Reconcile.Env) (st : Reconcile.RSt) (c : Nat) (aux : Option Nat)
        (sk : Bool),
      (Reconcile.completeReconcile env st c aux sk).2 =
        specNextChip (fun x => (st.chips x).prevSibling)
          (fun x => (st.chips x).parent) (fun x => (st.chips x).children)
          (fun x => (st.chips x).currentChildIndex) c) ∧
    (∀ (kids : Nat → Kids) (T : Render.CTree) (s : Render.St),
      Render.agreesT kids T = true → (Render.idsT T).Nodup →
      (∀ x ∈ Render.idsT T, Render.freshAt s x) → (s T.id).parent = none →
      ∃ f sFin,
        Render.runRender kids f s (some T.id) = (sFin, none, Render.rpostT T) ∧
        ∀ a ∈ Render.arrsT T, ∀ j k (hj : j < a.length) (hk : k < a.length), j < k →
          (Render.rpostT T).indexOf (a.get ⟨k, hk⟩) <
            (Render.rpostT T).indexOf (a.get ⟨j, hj⟩)) := by
  refine ⟨Render.completeChip_snd_spec, Reconcile.completeReconcile_snd_spec, ?_⟩
  intro kids T s hagree hnd hfresh hroot
  obtain ⟨f, sMid, hfr, hph, hprev, hpar, hrun⟩ :=
    (Render.runMaster (Render.szT T)).1 kids T s (le_refl _) hagree hnd hfresh
  have hroot' : (sMid T.id).parent = none := by
    rw [hpar]
    exact hroot
  rw [Render.nextChipAfter_root kids sMid T.id hprev hroot'] at hrun
  dsimp only [] at hrun
  exact ⟨f, sMid, hrun, Render.arrsT_order T hnd⟩

theorem claim_C2_witness :
    ((Render.completeChip demoKids demoS 3).2 =
      specNextChip (fun x => (demoS x).prevSibling) (fun x => (demoS x).parent)
        demoKids (fun x => (demoS x).currentChildIndex) 3) ∧
    (∃ f sFin,
      Render.runRender demoKids f demoS (some demoT.id) =
        (sFin, none, Render.rpostT demoT) ∧
      ∀ a ∈ Render.arrsT demoT, ∀ j k (hj : j < a.length) (hk : k < a.length), j < k →
        (Render.rpostT demoT).indexOf (a.get ⟨k, hk⟩) <
          (Render.rpostT demoT).indexOf (a.get ⟨j, hj⟩)) :=
  ⟨claim_C2_next_chip.1 demoKids demoS 3,
    claim_C2_next_chip.2.2 demoKids demoT demoS (by decide) (by decide) (by decide)
      rfl⟩

/-- C3: `reconcileProps(new, old)` returns a record holding exactly: every property
present in both props whose computed literal differs (mapped to the new literal),
every property only in the new props (mapped to its computed literal), and every
property only in the old props (mapped to the `PROP_TO_DELETE` sentinel); a property
whose literal is unchanged between the two never appears in the result. -/
theorem claim_C3_reconcileProps_minimal_delta (newProps oldProps : Reconcile.Props)
    (hn : (newProps.map Prod.fst).Nodup) :
    ∀ name : String,
      List.lookup name (Reconcile.reconcileProps newProps oldProps).1 =
        match List.lookup name newProps, List.lookup name oldProps with
        | some nv, some ov =>
            if Reconcile.newPropLiteral nv ≠ Reconcile.getPropLiteralValue ov then
              some (Reconcile.DV.v (Reconcile.newPropLiteral nv))
            else none
        | some nv, none => some (Reconcile.DV.v (Reconcile.newPropLiteral nv))
        | none, some _ => some Reconcile.DV.toDelete
        | none, none => none := by
  intro name
  show List.lookup name ((Reconcile.reconcilePropsNew newProps oldProps).1 ++
      (Reconcile.reconcilePropsOld newProps oldProps).1) = _
  rw [Reconcile.lookup_append, Reconcile.lookupNew_char oldProps newProps hn name,
    Reconcile.lookupOld_char newProps oldProps name]
  cases hnp : List.lookup name newProps with
  | some nv =>
      cases hop : List.lookup name oldProps with
      | some ov =>
          by_cases hv : Reconcile.newPropLiteral nv ≠ Reconcile.getPropLiteralValue ov
          · simp [hv]
          · simp [hv]
      | none => simp
  | none => cases hop : List.lookup name oldProps with
      | some ov => simp
      | none => simp

/-- C3 witness: on concrete props — `a` unchanged, `b` dynamic with a changed
literal, `c` only in the new props, `d` only in the old props — the delta holds
exactly the changed, added, and sentinel-deleted entries. -/
theorem claim_C3_witness :
    List.lookup "a" (Reconcile.reconcileProps
        [("a", .stat 1), ("b", .dyn 5 2), ("c", .stat 3)]
        [("a", .stat 1), ("b", .stat 9), ("d", .dyn 7 0)]).1 = none
    ∧ List.lookup "b" (Reconcile.reconcileProps
        [("a", .stat 1), ("b", .dyn 5 2), ("c", .stat 3)]
        [("a", .stat 1), ("b", .stat 9), ("d", .dyn 7 0)]).1 =
        some (Reconcile.DV.v 2)
    ∧ List.lookup "c" (Reconcile.reconcileProps
        [("a", .stat 1), ("b", .dyn 5 2), ("c", .stat 3)]
        [("a", .stat 1), ("b", .stat 9), ("d", .dyn 7 0)]).1 =
        some (Reconcile.DV.v 3)
    ∧ List.lookup "d" (Reconcile.reconcileProps
        [("a", .stat 1), ("b", .dyn 5 2), ("c", .stat 3)]
        [("a", .stat 1), ("b", .stat 9), ("d", .dyn 7 0)]).1 =
        some Reconcile.DV.toDelete := by
  have h := claim_C3_reconcileProps_minimal_delta
    [("a", .stat 1), ("b", .dyn 5 2), ("c", .stat 3)]
    [("a", .stat 1), ("b", .stat 9), ("d", .dyn 7 0)] (by decide)
  exact ⟨(h "a").trans (by decide), (h "b").trans (by decide),
    (h "c").trans (by decide), (h "d").trans (by decide)⟩

/-- C4: `isSkipReconcile` returns true exactly when (a) the chip's compileFlags
include the STATIC bit and the compileFlags of the chip of the current rendering
instance (the nearest enclosing block) include the PREDICTABLE bit, or (b) the chip
carries the `maySkip` hint and has a non-null wormhole pairing; otherwise false. -/
theorem claim_C4_isSkipReconcile_iff (chip : Reconcile.RChip) (blockFlags : Nat) :
    Reconcile.isSkipReconcile chip blockFlags = true ↔
      ((chip.compileFlags &&& Reconcile.STATIC_FLAG ≠ 0 ∧
        blockFlags &&& Reconcile.PREDICTABLE_FLAG ≠ 0) ∨
       (chip.maySkip = true ∧ chip.wormhole ≠ none)) := by
  simp [Reconcile.isSkipReconcile, Bool.or_eq_true, Bool.and_eq_true,
    Option.isSome_iff_ne_none]

/-- Environment for the C5 instances: virtual renders produce no chip child, the
current rendering instance's block is not predictable. -/
def c5Env : Reconcile.Env :=
  { vrender := fun _ => Kids.knone, criFlags := 0, parentNodeOf := fun _ => none }

/-- A previous-generation component chip whose effect-list accessor was never
initialized (no effect was ever cached on it). -/
def c5OldChip : Reconcile.RChip :=
  { phase := ChipPhases.COMPLETE, parent := none, prevSibling := none,
    lastChild := none, currentChildIndex := 0, wormhole := none,
    chipType := .CUSTOM_COMPONENT, compileFlags := 0, maySkip := false,
    deletions := none, elm := some 7, inst := none, children := Kids.knone,
    props := [], tag := "comp", effects := false }

/-- A non-skippable new-generation component chip wormhole-paired to chip 1. -/
def c5NewChip : Reconcile.RChip :=
  { phase := ChipPhases.PENDING, parent := none, prevSibling := none,
    lastChild := none, currentChildIndex := 0, wormhole := some 1,
    chipType := .CUSTOM_COMPONENT, compileFlags := 0, maySkip := false,
    deletions := none, elm := none, inst := none, children := Kids.knone,
    props := [], tag := "comp", effects := false }

/-- Heap for the C5 counterexample: chip 0 is the paired new chip, chip 1 its
effect-less previous pair; empty root queues. -/
def c5CrashSt : Reconcile.RSt :=
  { chips := fun n => if n = 1 then c5OldChip else c5NewChip, payloads := [],
    abandoned := [], hooks := [], jobs := [], trace := [] }

/-- A non-skippable mount-case component chip (no wormhole pairing). -/
def c5MountChip : Reconcile.RChip :=
  { phase := ChipPhases.PENDING, parent := none, prevSibling := none,
    lastChild := none, currentChildIndex := 0, wormhole := none,
    chipType := .CUSTOM_COMPONENT, compileFlags := 0, maySkip := false,
    deletions := none, elm := none, inst := none, children := Kids.knone,
    props := [], tag := "comp", effects := false }

/-- Heap for the C5 witness: every chip is the mount-case component chip. -/
def c5MountSt : Reconcile.RSt :=
  { chips := fun _ => c5MountChip, payloads := [], abandoned := [], hooks := [],
    jobs := [], trace := [] }

/-- C5 counterexample, refuting the claim's lifecycle conjuncts and its unguarded
wormhole clause.  (a) A non-skippable mount-case component chip: `initReconcile`
caches its CREATE_ELEMENT payload, but neither INIT nor WILL_MOUNT fires — the
guard `componentInst` is captured from `chip.instance` (null on every chip built by
`createChip`/`cloneChip`) before `initVirtualChip` assigns the instance.  (b) A
component chip paired to a previous chip whose effects list was never initialized:
`initVirtualChip` passes `wormhole.effects?.first` (undefined) to
`cacheAbandonedEffect`, which dereferences `.next` on it and throws, so
`initReconcile` aborts with no WILL_UPDATE on the trace. -/
theorem claim_C5_counterexample :
    ((c5MountSt.chips 0).chipType = Reconcile.ChipTypes.CUSTOM_COMPONENT
    ∧ (c5MountSt.chips 0).wormhole = none
    ∧ (c5MountSt.chips 0).phase = ChipPhases.PENDING
    ∧ Reconcile.isSkipReconcile (c5MountSt.chips 0) c5Env.criFlags = false
    ∧ (Reconcile.initReconcile c5Env c5MountSt 0 none).state.payloads.countP
        (fun p => p.ptype == Reconcile.CREATE_ELEMENT) = 1
    ∧ Reconcile.REvent.lifecycle Reconcile.HookKinds.INIT 0 ∉
        (Reconcile.initReconcile c5Env c5MountSt 0 none).state.trace
    ∧ Reconcile.REvent.lifecycle Reconcile.HookKinds.WILL_MOUNT 0 ∉
        (Reconcile.initReconcile c5Env c5MountSt 0 none).state.trace)
    ∧ ((c5CrashSt.chips 0).wormhole = some 1
    ∧ Reconcile.isSkipReconcile (c5CrashSt.chips 0) c5Env.criFlags = false
    ∧ (c5CrashSt.chips 0).phase = ChipPhases.PENDING
    ∧ (Reconcile.initReconcile c5Env c5CrashSt 0 none).isThrown = true
    ∧ Reconcile.REvent.lifecycle Reconcile.HookKinds.WILL_UPDATE 0 ∉
        (Reconcile.initReconcile c5Env c5CrashSt 0 none).state.trace) := by
  decide

/-- C5 (amended): for every non-skippable chip entering `initReconcile` in phase
PENDING with a null component instance (as every chip reaching reconciliation has:
`createChip` builds chips with `instance: null` and the clone made by `cloneChip`
carries no `instance` field): with no wormhole pairing, exactly one CREATE_ELEMENT
payload is appended to the payload queue of the root and its post-commit callback
assigns the element created at commit to the `elm` field of the chip; with a
wormhole pairing whose
paired previous chip has an initialized effects list, no CREATE_ELEMENT payload is
created (without that proviso the effect release throws and `initReconcile` aborts —
see the counterexample); and no INIT, WILL_MOUNT or WILL_UPDATE lifecycle fires in
any case, because the `componentInst` guard is captured before `initVirtualChip`
assigns the instance. -/
theorem claim_C5_initReconcile_amended (env : Reconcile.Env) (st : Reconcile.RSt)
    (c : Nat) (lastChip : Option Nat)
    (hskip : Reconcile.isSkipReconcile (st.chips c) env.criFlags = false)
    (hph : (st.chips c).phase = ChipPhases.PENDING)
    (hinst : (st.chips c).inst = none) :
    ((st.chips c).wormhole = none →
      ∃ Δ, (Reconcile.initReconcile env st c lastChip).state.payloads =
          st.payloads ++ Δ
        ∧ Δ.countP (fun p => p.ptype == Reconcile.CREATE_ELEMENT) = 1
        ∧ (∀ p ∈ Δ, p.ptype = Reconcile.CREATE_ELEMENT →
            p.callback = some Reconcile.CallbackKind.assignElmToContext
            ∧ p.context = c))
    ∧ (∀ w, (st.chips c).wormhole = some w → (st.chips w).effects = true →
        ∃ Δ, (Reconcile.initReconcile env st c lastChip).state.payloads =
            st.payloads ++ Δ
          ∧ Δ.countP (fun p => p.ptype == Reconcile.CREATE_ELEMENT) = 0)
    ∧ ((Reconcile.initReconcile env st c lastChip).state.trace.countP
        Reconcile.isLifecycleEv = st.trace.countP Reconcile.isLifecycleEv)
    ∧ (∀ stA : Reconcile.RSt, ∀ e : Nat,
        ((Reconcile.runCallback Reconcile.CallbackKind.assignElmToContext stA c
          e).chips c).elm = some e) := by
  have hchip : ((Reconcile.markInitialized st c).chips c) =
      { st.chips c with phase := ChipPhases.INITIALIZE } := by
    simp [Reconcile.markInitialized, Reconcile.updChip]
  have hchipW : ∀ w : Nat,
      ((Reconcile.markInitialized st c).chips w).effects = (st.chips w).effects := by
    intro w
    by_cases hwc : w = c
    · subst hwc
      rw [hchip]
    · simp [Reconcile.markInitialized, Reconcile.updChip, hwc]
  have hskip0 : Reconcile.isSkipReconcile ((Reconcile.markInitialized st c).chips c)
      env.criFlags = false := by
    rw [hchip]
    exact hskip
  have hinst0 : ((Reconcile.markInitialized st c).chips c).inst = none := by
    rw [hchip]
    exact hinst
  have hred : Reconcile.initReconcile env st c lastChip =
      Reconcile.initReconcileBody env (Reconcile.markInitialized st c) c lastChip :=
    rfl
  have hpay0 : (Reconcile.markInitialized st c).payloads = st.payloads := rfl
  have htr0 : (Reconcile.markInitialized st c).trace = st.trace := rfl
  refine ⟨?_, ?_, ?_, ?_⟩
  · intro hw
    have hw0 : ((Reconcile.markInitialized st c).chips c).wormhole = none := by
      rw [hchip]
      exact hw
    obtain ⟨Δ, h1, h2, h3⟩ := Reconcile.initReconcileBody_mount env
      (Reconcile.markInitialized st c) c lastChip hskip0 hw0 hinst0
    rw [← hred, hpay0] at h1
    exact ⟨Δ, h1, h2, h3⟩
  · intro w hw heff
    have hw0 : ((Reconcile.markInitialized st c).chips c).wormhole = some w := by
      rw [hchip]
      exact hw
    have heff0 : ((Reconcile.markInitialized st c).chips w).effects = true := by
      rw [hchipW w]
      exact heff
    obtain ⟨Δ, h1, h2⟩ := Reconcile.initReconcileBody_update env
      (Reconcile.markInitialized st c) c w lastChip hskip0 hw0 heff0 hinst0
    rw [← hred, hpay0] at h1
    exact ⟨Δ, h1, h2⟩
  · have h := Reconcile.initReconcileBody_lifecycleCount env
      (Reconcile.markInitialized st c) c lastChip hinst0
    rw [← hred, htr0] at h
    exact h
  · intro stA e
    simp [Reconcile.runCallback, Reconcile.updChip]

/-- C5 witness: on a concrete non-skippable mount-case component chip with a null
instance, the payload delta of `initReconcile` holds exactly one CREATE_ELEMENT
payload whose callback writes the created element onto the chip context, and the
run adds no lifecycle event to the trace. -/
theorem claim_C5_witness :
    (∃ Δ, (Reconcile.initReconcile c5Env c5MountSt 0 none).state.payloads =
        c5MountSt.payloads ++ Δ
      ∧ Δ.countP (fun p => p.ptype == Reconcile.CREATE_ELEMENT) = 1
      ∧ (∀ p ∈ Δ, p.ptype = Reconcile.CREATE_ELEMENT →
          p.callback = some Reconcile.CallbackKind.assignElmToContext
          ∧ p.context = 0))
    ∧ (Reconcile.initReconcile c5Env c5MountSt 0 none).state.trace.countP
        Reconcile.isLifecycleEv = c5MountSt.trace.countP Reconcile.isLifecycleEv := by
  have h := claim_C5_initReconcile_amended c5Env c5MountSt 0 none (by decide)
    (by decide) (by decide)
  exact ⟨h.1 (by decide), h.2.2.1⟩


/-- C6: `performReconcileWork(oldChip, newChip, root, needCommit)` sets
`newChip.wormhole = oldChip` whatever the outcome of the job registration, and a
registration exception is swallowed by the empty catch handler: the function returns
normally, with exactly the wormhole assignment (the progress of the try block before
the throw) applied. -/
theorem claim_C6_performReconcileWork_swallows (oldChip newChip : Nat)
    (needCommit : Bool) (r : Except Unit Unit) (st : Reconcile.RSt) :
    ((Reconcile.performReconcileWork oldChip newChip needCommit r st).chips
        newChip).wormhole = some oldChip
    ∧ (∀ e : Unit, Reconcile.performReconcileWork oldChip newChip needCommit
        (Except.error e) st = Reconcile.setWormhole st newChip oldChip) := by
  constructor
  · cases r with
    | ok u =>
        simp [Reconcile.performReconcileWork, Reconcile.registerOngoingReconcileWork,
          Reconcile.setWormhole]
    | error e =>
        simp [Reconcile.performReconcileWork, Reconcile.registerOngoingReconcileWork,
          Reconcile.setWormhole]
  · intro e
    rfl

/-- C7 (evaluation at the failing input): caching three effects on one chip with
`cacheEffectToChip` leaves the chip's effect list holding only the first and third
effect — the second is orphaned because `effect.last = effects.last.next =
effectNode` never advances `chip.effects.last` (compare the correct
`effects.last = effects.last.next = effectNode` in `cacheAbandonedEffect` and
`cacheRenderPayload`) — and `chip.effects.last` still points at the unit of the
first effect, not the most recently cached one. -/
theorem claim_C7_cacheEffectToChip_bug :
    EffCache.effectList EffCache.threeCached = [1, 3]
    ∧ 2 ∉ EffCache.effectList EffCache.threeCached
    ∧ EffCache.lastPointedEffect EffCache.threeCached = some 1 := by
  decide

/-- C8: a CONDITION chip falls through its `switch` case into the FRAGMENT case in
both `initRenderWorkForChip` and `completeRenderWorkForChipSync` (no `break`), so it
executes both the condition and the iterable bodies, while a FRAGMENT chip executes
only the iterable body. -/
theorem claim_C8_condition_fallthrough :
    SwitchModel.initRenderWorkForChip .CONDITION =
      [.initConditionWork, .initIterableWork]
    ∧ SwitchModel.completeRenderWorkForChipSync .CONDITION =
      [.completeConditionWork, .completeIterableWork]
    ∧ SwitchModel.initRenderWorkForChip .FRAGMENT = [.initIterableWork]
    ∧ SwitchModel.completeRenderWorkForChipSync .FRAGMENT =
      [.completeIterableWork] := by
  decide

/-- C9: `cloneChip` ignores its `props` and `children` parameters entirely — the
result is built only from the original chip's fields — so the new chip
`genReconcileEffects` hands to `performReconcileWork` never contains the freshly
rendered children, and array children become a plain index-keyed object copy rather
than an array. -/
theorem claim_C9_cloneChip_ignores_parameters :
    ∀ (chip : CloneModel.SrcChip) (p1 p2 : Reconcile.Props)
      (c1 c2 : CloneModel.JChildren),
      CloneModel.cloneChip chip p1 c1 = CloneModel.cloneChip chip p2 c2
      ∧ (CloneModel.cloneChip chip p1 c1).children =
          CloneModel.objAssignCopy chip.children
      ∧ CloneModel.genReconcileEffectsNewChip chip c1 =
          CloneModel.genReconcileEffectsNewChip chip c2
      ∧ (CloneModel.genReconcileEffectsNewChip chip c1).children =
          CloneModel.objAssignCopy chip.children
      ∧ (∀ cs, chip.children = .arr cs →
          (CloneModel.cloneChip chip p1 c1).children = .ofArrIndexed cs) := by
  intro chip p1 p2 c1 c2
  refine ⟨rfl, rfl, rfl, rfl, ?_⟩
  intro cs h
  simp [CloneModel.cloneChip, CloneModel.objAssignCopy, h]

/-- C9 witness: a concrete chip whose children array `[4, 5]` is turned into a plain
object copy, with the clone identical whatever props/children arguments are passed. -/
theorem claim_C9_witness :
    CloneModel.cloneChip ⟨"div", 0, 1, .arr [4, 5], none, none, none, []⟩ [] (.arr [9])
      = CloneModel.cloneChip ⟨"div", 0, 1, .arr [4, 5], none, none, none, []⟩
          [("a", .stat 3)] .undef
    ∧ (CloneModel.cloneChip ⟨"div", 0, 1, .arr [4, 5], none, none, none, []⟩ []
        (.arr [9])).children = .ofArrIndexed [4, 5] := by
  have h := claim_C9_cloneChip_ignores_parameters
    ⟨"div", 0, 1, .arr [4, 5], none, none, none, []⟩ [] [("a", .stat 3)] (.arr [9]) .undef
  exact ⟨h.1, h.2.2.2.2 [4, 5] rfl⟩

/-- C10: when some ancestor in the parent chain has a non-null `elm`,
`getAncestorContainer` terminates and returns the `elm` of the nearest such ancestor
(all ancestors before it have null `elm`); when no ancestor has one, the walk
exhausts the chain and the `current.elm` access on the null parent throws — so the
parent-container lookup at the head of `completeRenderWorkForElement` is safe only
under a materialized ancestor container. -/
theorem claim_C10_getAncestorContainer (chain : List (Option Nat)) :
    ((∃ x ∈ chain, x ≠ none) →
      ∃ e pre rest, Ancestor.getAncestorContainer chain = some e
        ∧ chain = pre ++ some e :: rest
        ∧ ∀ y ∈ pre, y = none)
    ∧ ((∀ x ∈ chain, x = none) → Ancestor.getAncestorContainer chain = none) := by
  induction chain with
  | nil =>
      constructor
      · rintro ⟨x, hx, -⟩
        simp at hx
      · intro _
        rfl
  | cons hd tl ih =>
      constructor
      · rintro ⟨x, hx, hxn⟩
        match hd with
        | some e =>
            exact ⟨e, [], tl, rfl, rfl, by simp⟩
        | none =>
            have hmem : x ∈ tl := by
              rcases List.mem_cons.mp hx with h | h
              · exact absurd h hxn
              · exact h
            obtain ⟨e, pre, rest, h1, h2, h3⟩ := ih.1 ⟨x, hmem, hxn⟩
            refine ⟨e, none :: pre, rest, h1, by simp [h2], ?_⟩
            intro y hy
            rcases List.mem_cons.mp hy with h | h
            · exact h
            · exact h3 y h
      · intro hall
        have hhd : hd = none := hall hd (List.mem_cons_self hd tl)
        subst hhd
        exact ih.2 fun x hx => hall x (List.mem_cons_of_mem none hx)

/-- C10 witness: a chain whose second ancestor is the first materialized container,
and an all-null chain on which the walk falls off the parent chain. -/
theorem claim_C10_witness :
    (∃ e pre rest, Ancestor.getAncestorContainer [none, some 5, some 7] = some e
      ∧ [none, some 5, some 7] = pre ++ some e :: rest
      ∧ ∀ y ∈ pre, y = none)
    ∧ Ancestor.getAncestorContainer [none, none] = none := by
  exact ⟨(claim_C10_getAncestorContainer [none, some 5, some 7]).1 (by decide),
    (claim_C10_getAncestorContainer [none, none]).2 (by decide)⟩
